import Mathlib

/-!
Shallow embedding of the day-15 grid combat simulator (`src/day_15.py`).

Conventions of the embedding:
* Python `int` is `Int`; grid positions `(x, y)` (row, column) are `Int × Int`.
* The Python dict `critters` (insertion-ordered, unique keys) is an
  association list `List (Pos × Critter)`; dict assignment to a fresh key
  appends at the end, assignment to a present key updates in place, exactly
  as CPython dicts behave.  The only observable uses of dict order in the
  source are `critters.values()` scans whose results do not depend on order
  (unique-id lookup, counting, filtering), so list order is tracked but the
  simulation results are order-robust.
* Python mutation of a `Critter` object aliased from the dict is modelled by
  updating the value stored at the object's key; in the source each critter
  object is stored under exactly one key.
* A raised `IndexError`/`KeyError` is modelled as `none`; loops whose
  termination the source does not establish take explicit fuel, with fuel
  exhaustion also `none`.
* `list(set(new_stack))` iterates in an order CPython leaves unspecified; we
  deduplicate keeping first occurrences.  The surrounding algorithm reads the
  stack only through per-tile processing whose final selection depends only
  on the set of collected entries.
-/

set_option autoImplicit false

namespace Day15

inductive Terrain where
  | WALL
  | FLOOR
deriving DecidableEq, Repr

inductive Race where
  | ELF
  | GOBLIN
deriving DecidableEq, Repr

/-- One combatant, as in `Critter.__init__`: attack power 3, 200 hit points,
a race, a position `(x, y)` and a sequentially assigned id. -/
structure Critter where
  attack_power : Int
  hit_points : Int
  race : Race
  x : Int
  y : Int
  id : Nat
deriving DecidableEq, Repr

abbrev Pos : Type := Int × Int

abbrev Board : Type := List (List Terrain)

abbrev CritterMap : Type := List (Pos × Critter)

/-- Dict lookup `critters[p]` (keys are unique; first match). -/
def cmFind? (cs : CritterMap) (p : Pos) : Option Critter :=
  match cs with
  | [] => none
  | (q, c) :: rest => if q = p then some c else cmFind? rest p

/-- Dict membership `p in critters`. -/
def cmContains (cs : CritterMap) (p : Pos) : Bool :=
  (cmFind? cs p).isSome

/-- Dict deletion `del critters[p]`. -/
def cmErase (cs : CritterMap) (p : Pos) : CritterMap :=
  cs.filter (fun q => q.1 ≠ p)

/-- In-place value update at an existing key (Python object mutation seen
through the dict). -/
def cmUpdate (cs : CritterMap) (p : Pos) (c : Critter) : CritterMap :=
  cs.map (fun q => if q.1 = p then (p, c) else q)

/-- Dict assignment `critters[p] = c`: update in place when the key is
present, append otherwise (CPython insertion-order semantics). -/
def cmAssign (cs : CritterMap) (p : Pos) (c : Critter) : CritterMap :=
  if cmContains cs p then cmUpdate cs p c else cs ++ [(p, c)]

/-- `critters.values()`. -/
def cmValues (cs : CritterMap) : List Critter :=
  cs.map Prod.snd

/-- Iterating over the dict yields its keys. -/
def cmKeys (cs : CritterMap) : List Pos :=
  cs.map Prod.fst

/-- Reading order (row-major) on positions, as Python compares `(x, y)`
tuples. -/
def posLe (p q : Pos) : Bool :=
  decide (p.1 < q.1 ∨ (p.1 = q.1 ∧ p.2 ≤ q.2))

/-- Stable insertion into a sorted list: a new element goes after all
existing elements that compare `le` to it, matching Python's stable sort. -/
def insertSorted {A : Type} (le : A → A → Bool) (a : A) : List A → List A
  | [] => [a]
  | b :: bs => if le b a then b :: insertSorted le a bs else a :: b :: bs

/-- Stable sort by a boolean total preorder (Python `sorted` / `list.sort`). -/
def sortByBool {A : Type} (le : A → A → Bool) (xs : List A) : List A :=
  xs.foldl (fun acc a => insertSorted le a acc) []

/-- Sort key for `sorted(adj_enemies, key=lambda x: critters[x].hit_points)`.
`adjacent_enemies` only returns occupied positions, so the lookups succeed. -/
def hpLe (cs : CritterMap) (p q : Pos) : Bool :=
  match cmFind? cs p, cmFind? cs q with
  | some a, some b => a.hit_points ≤ b.hit_points
  | _, _ => true

/-- `Game.delta`, in source order: left, up, down, right. -/
def delta : List (Int × Int) :=
  [(0, -1), (-1, 0), (1, 0), (0, 1)]

/-- `adjacent_enemies(tile, race)`: positions of enemies of `race` adjacent
to `tile`, in `delta` order. -/
def adjacent_enemies (cs : CritterMap) (tile : Pos) (race : Race) : List Pos :=
  delta.filterMap (fun d =>
    let np : Pos := (tile.1 + d.1, tile.2 + d.2)
    match cmFind? cs np with
    | some c => if c.race ≠ race then some np else none
    | none => none)

/-- `can_be_occupied(tile)`, translated literally, including the chained
comparisons `0 <= x <= len(self._board)` and `0 <= y <= len(self._board[0])`
with Python short-circuit evaluation; `none` models a raised `IndexError`
from `self._board[0]` or `self._board[x][y]`. -/
def can_be_occupied (board : Board) (cs : CritterMap) (tile : Pos) : Option Bool :=
  let x := tile.1
  let y := tile.2
  if ¬ (0 ≤ x) then some false
  else if ¬ (x ≤ (board.length : Int)) then some false
  else if ¬ (0 ≤ y) then some false
  else
    match board[0]? with
    | none => none
    | some row0 =>
      if ¬ (y ≤ (row0.length : Int)) then some false
      else
        match board[x.toNat]? with
        | none => none
        | some rowx =>
          match rowx[y.toNat]? with
          | none => none
          | some t =>
            if t = Terrain.FLOOR then some (!(cmContains cs tile)) else some false

/-- Effectful filter in `Option`, evaluating the predicate left to right and
propagating the first failure, as a Python list comprehension would. -/
def filterMO {A : Type} (p : A → Option Bool) : List A → Option (List A)
  | [] => some []
  | a :: as =>
    match p a with
    | none => none
    | some b =>
      match filterMO p as with
      | none => none
      | some rest => some (if b then a :: rest else rest)

/-- A candidate recorded by the movement search: `(move, distance, tile)` —
the first step, the BFS distance from the unit, and the enemy-adjacent
destination tile. -/
abbrev Entry : Type := Pos × Nat × Pos

/-- Deduplication keeping first occurrences (stands in for `list(set(xs))`,
whose order CPython leaves unspecified; see the header note). -/
def dedupKeepFirst (xs : List Pos) : List Pos :=
  xs.foldl (fun acc p => if p ∈ acc then acc else acc ++ [p]) []

/-- The body of `for tile in stack:` for one BFS level: skip covered tiles,
mark each new tile covered, record it as a candidate when an enemy is
adjacent (clearing `cont`), and otherwise push its occupiable uncovered
neighbours onto `new_stack`. -/
def processTiles (board : Board) (cs : CritterMap) (race : Race) (move : Pos)
    (distance : Nat) :
    List Pos → List Pos → List Entry → List Pos → Bool →
    Option (List Pos × List Entry × List Pos × Bool)
  | [], covered, best, newStack, cont => some (covered, best, newStack, cont)
  | t :: rest, covered, best, newStack, cont =>
    if t ∈ covered then
      processTiles board cs race move distance rest covered best newStack cont
    else
      let covered' := covered ++ [t]
      if (adjacent_enemies cs t race).length ≠ 0 then
        processTiles board cs race move distance rest covered'
          (best ++ [(move, distance, t)]) newStack false
      else
        let newTiles := delta.map (fun d => (t.1 + d.1, t.2 + d.2))
        match filterMO
            (fun s => if s ∈ covered' then some false else can_be_occupied board cs s)
            newTiles with
        | none => none
        | some adds =>
          processTiles board cs race move distance rest covered' best
            (newStack ++ adds) cont

/-- The `while cont:` BFS loop for a single first step `move`.  Each
iteration raises the distance, processes the whole frontier, rebuilds the
stack from the deduplicated `new_stack`, and stops when a candidate was
found or the stack is empty. -/
def bfsLoop (board : Board) (cs : CritterMap) (race : Race) (move : Pos) :
    Nat → List Pos → List Pos → List Entry → Nat → Option (List Entry)
  | 0, _, _, _, _ => none
  | fuel + 1, stack, covered, best, distance =>
    match processTiles board cs race move (distance + 1) stack covered best [] true with
    | none => none
    | some (covered', best', newStack, cont) =>
      let stack' := dedupKeepFirst newStack
      if stack'.isEmpty || !cont then some best'
      else bfsLoop board cs race move fuel stack' covered' best' (distance + 1)

/-- One iteration of `for move in moves:`: record `(move, 1, move)` when the
first step is already enemy-adjacent, then run the BFS with the covered set
seeded by all first steps and the unit's own tile. -/
def bfsForMove (board : Board) (cs : CritterMap) (race : Race) (origin : Pos)
    (moves : List Pos) (best : List Entry) (m : Pos) (fuel : Nat) :
    Option (List Entry) :=
  let best1 := if (adjacent_enemies cs m race).length > 0 then best ++ [(m, 1, m)] else best
  let covered := moves ++ [origin]
  let nbrs := delta.map (fun d => (m.1 + d.1, m.2 + d.2))
  match filterMO
      (fun s => if s ∈ covered then some false else can_be_occupied board cs s)
      nbrs with
  | none => none
  | some stack0 => bfsLoop board cs race m fuel stack0 covered best1 1

/-- The whole `for move in moves:` loop, accumulating `best_moves`. -/
def bfsAllMoves (board : Board) (cs : CritterMap) (race : Race) (origin : Pos)
    (moves : List Pos) (fuel : Nat) :
    List Pos → List Entry → Option (List Entry)
  | [], best => some best
  | m :: rest, best =>
    match bfsForMove board cs race origin moves best m fuel with
    | none => none
    | some best' => bfsAllMoves board cs race origin moves fuel rest best'

/-- The three-stage selection over `best_moves`: keep minimal distance, sort
by destination tile and keep the first, sort by first step and keep the
first; the chosen move is the head's first component. -/
def selectBestMove (best : List Entry) : Option Pos :=
  match best with
  | [] => none
  | e :: es =>
    let minDist := es.foldl (fun acc b => Nat.min acc b.2.1) e.2.1
    let bm1 := (e :: es).filter (fun b => b.2.1 = minDist)
    let bm2s := sortByBool (fun a b => posLe a.2.2 b.2.2) bm1
    match bm2s with
    | [] => none
    | f :: _ =>
      let bm2 := bm2s.filter (fun b => b.2.2 = f.2.2)
      let bm3s := sortByBool (fun a b => posLe a.1 b.1) bm2
      match bm3s with
      | [] => none
      | g :: _ =>
        let bm3 := bm3s.filter (fun b => b.1 = g.1)
        match bm3 with
        | [] => none
        | h :: _ => some h.1

/-- `enemy_to_attack.hit_points -= critter.attack_power`, followed by removal
of the victim (keyed, as in the source, by its own recorded coordinates) when
its hit points drop to zero or below.  `none` models the impossible
`KeyError` (the position comes from `adjacent_enemies`). -/
def attackAt (cs : CritterMap) (attacker : Critter) (p : Pos) : Option CritterMap :=
  match cmFind? cs p with
  | none => none
  | some enemy =>
    let enemy' := { enemy with hit_points := enemy.hit_points - attacker.attack_power }
    let cs' := cmUpdate cs p enemy'
    if enemy'.hit_points ≤ 0 then some (cmErase cs' (enemy'.x, enemy'.y)) else some cs'

/-- The turn body of one living critter that still has living enemies: attack
the weakest adjacent enemy if any (case 1), otherwise run the movement
search, take the chosen step and re-check for an adjacent enemy (case 2). -/
def critterAct (board : Board) (cs : CritterMap) (c : Critter) (fuel : Nat) :
    Option CritterMap :=
  match sortByBool (hpLe cs) (adjacent_enemies cs (c.x, c.y) c.race) with
  | p :: _ => attackAt cs c p
  | [] =>
    let moves0 := delta.map (fun d => (c.x + d.1, c.y + d.2))
    match filterMO (can_be_occupied board cs) moves0 with
    | none => none
    | some moves =>
      match bfsAllMoves board cs c.race (c.x, c.y) moves fuel moves [] with
      | none => none
      | some best =>
        match selectBestMove best with
        | none => some cs
        | some bm =>
          let c' := { c with x := bm.1, y := bm.2 }
          let cs2 := cmErase (cmAssign cs bm c') (c.x, c.y)
          match sortByBool (hpLe cs2) (adjacent_enemies cs2 (c'.x, c'.y) c'.race) with
          | [] => some cs2
          | p :: _ => attackAt cs2 c' p

/-- `for critter_id in critter_order:`: skip dead critters, stop (clearing
`all_units_acted`) when the acting critter has no living enemy, otherwise run
the critter's turn.  Returns the critters and the final `all_units_acted`. -/
def runTurns (board : Board) (fuel : Nat) :
    List Nat → CritterMap → Option (CritterMap × Bool)
  | [], cs => some (cs, true)
  | cid :: rest, cs =>
    match (cmValues cs).find? (fun c => c.id = cid) with
    | none => runTurns board fuel rest cs
    | some c =>
      if ((cmValues cs).filter (fun e => e.race ≠ c.race)).length = 0 then
        some (cs, false)
      else
        match critterAct board cs c fuel with
        | none => none
        | some cs' => runTurns board fuel rest cs'

/-- One round: fix the turn order (ids of the critters sorted by position in
reading order) and run the turns. -/
def playRound (board : Board) (cs : CritterMap) (fuel : Nat) :
    Option (CritterMap × Bool) :=
  let order := (sortByBool posLe (cmKeys cs)).filterMap (fun p => (cmFind? cs p).map (·.id))
  runTurns board fuel order cs

/-- The `while True:` game loop: play rounds, counting each complete one,
until a round ends early. -/
def playLoop (board : Board) : Nat → CritterMap → Nat → Option (Nat × CritterMap)
  | 0, _, _ => none
  | fuel + 1, cs, rounds =>
    match playRound board cs fuel with
    | none => none
    | some (cs', acted) =>
      if acted then playLoop board fuel cs' (rounds + 1)
      else some (rounds, cs')

/-- Total hit points of the survivors. -/
def sumHP (cs : CritterMap) : Int :=
  ((cmValues cs).map (fun c => c.hit_points)).sum

/-- Number of surviving critters of a race. -/
def countRace (r : Race) (cs : CritterMap) : Nat :=
  ((cmValues cs).filter (fun c => c.race = r)).length

/-- The immutable game setup: board and initial critters. -/
structure Game where
  board : Board
  critters : CritterMap
deriving DecidableEq, Repr

/-- `Game.play`, run from a given critter configuration: the loop's final
state yields `(num_rounds * total hit points, number of surviving elves)`. -/
def playFrom (g : Game) (cs : CritterMap) (fuel : Nat) : Option (Int × Nat) :=
  match playLoop g.board fuel cs 0 with
  | none => none
  | some (rounds, final) => some ((rounds : Int) * sumHP final, countRace Race.ELF final)

/-- `Game.play()` with the default critters. -/
def play (g : Game) (fuel : Nat) : Option (Int × Nat) :=
  playFrom g g.critters fuel

/-- Terrain of one input character (`Game.__init__`): `.`, `E` and `G` are
floor, every other character is a wall. -/
def charTerrain (ch : Char) : Terrain :=
  if ch = '.' ∨ ch = 'E' ∨ ch = 'G' then Terrain.FLOOR else Terrain.WALL

/-- The race denoted by an input character, if any. -/
def charRace (ch : Char) : Option Race :=
  if ch = 'E' then some Race.ELF
  else if ch = 'G' then some Race.GOBLIN
  else none

/-- Splitting a character list on a separator, with Python `str.split(sep)`
semantics: the empty input yields one empty field, and a trailing separator
yields a trailing empty field. -/
def splitCharsOn (sep : Char) : List Char → List (List Char)
  | [] => [[]]
  | c :: rest =>
    let r := splitCharsOn sep rest
    if c = sep then [] :: r
    else
      match r with
      | [] => [[c]]
      | l :: ls => (c :: l) :: ls

/-- The input split into rows of characters (`data.split('\n')`). -/
def splitLines (data : String) : List (List Char) :=
  splitCharsOn '\n' data.toList

/-- The critter positions and races of one row from column `col` on
(`enumerate` over the row's characters). -/
def rowCrittersFrom (row : Int) (col : Nat) : List Char → List (Pos × Race)
  | [] => []
  | ch :: rest =>
    match charRace ch with
    | some r => (((row, (col : Int)) : Pos), r) :: rowCrittersFrom row (col + 1) rest
    | none => rowCrittersFrom row (col + 1) rest

/-- The critter positions and races of one row, in column order. -/
def rowCritterRaces (row : Int) (chars : List Char) : List (Pos × Race) :=
  rowCrittersFrom row 0 chars

/-- All critter positions and races from row `row` on (`enumerate` over the
rows), in row-major order. -/
def placedCritters (row : Int) : List (List Char) → List (Pos × Race)
  | [] => []
  | chars :: rest => rowCritterRaces row chars ++ placedCritters (row + 1) rest

/-- A freshly created critter (`Critter.__init__`). -/
def mkCritter (race : Race) (x y : Int) (id : Nat) : Critter :=
  { attack_power := 3, hit_points := 200, race := race, x := x, y := y, id := id }

/-- Sequential id assignment in creation order (the class-level counter of
`Critter`, starting from 0 in a fresh process). -/
def assignIds (i : Nat) : List (Pos × Race) → CritterMap
  | [] => []
  | pr :: rest => (pr.1, mkCritter pr.2 pr.1.1 pr.1.2 i) :: assignIds (i + 1) rest

/-- `Game.__init__`: parse the text block into the board and the critter
dict, ids assigned in creation order (row-major) starting from 0. -/
def gameInit (data : String) : Game :=
  let lines := splitLines data
  let board := lines.map (fun chars => chars.map charTerrain)
  { board := board, critters := assignIds 0 (placedCritters 0 lines) }

/-- The critters with every elf's attack power set to `p` (the mutation of
the `elves` list in `determine_elf_strength`). -/
def setElfPower (p : Int) (cs : CritterMap) : CritterMap :=
  cs.map (fun q => if q.2.race = Race.ELF then (q.1, { q.2 with attack_power := p }) else q)

/-- The `while True:` loop of `determine_elf_strength`: bump the elves'
attack power by one, replay, and return the score of the first run in which
every original elf survived. -/
def calibrateLoop (g : Game) (numElves : Nat) (fuel : Nat) :
    Nat → Int → Option Int
  | 0, _ => none
  | iters + 1, power =>
    let cs := setElfPower (power + 1) g.critters
    match playFrom g cs fuel with
    | none => none
    | some (score, pop) =>
      if pop = numElves then some score
      else calibrateLoop g numElves fuel iters (power + 1)

/-- `Game.determine_elf_strength()`. -/
def determine_elf_strength (g : Game) (fuel iters : Nat) : Option Int :=
  calibrateLoop g (countRace Race.ELF g.critters) fuel iters 3

/-! ### Concrete fixtures used to exercise the definitions -/

/-- A 4×4 fenced board. -/
def exBoard4 : Board :=
  (gameInit "####\n#.G#\n#E.#\n####").board

/-- A weak elf, one hit from death. -/
def elf0 : Critter :=
  { attack_power := 3, hit_points := 3, race := Race.ELF, x := 1, y := 1, id := 0 }

/-- A weak goblin, one hit from death. -/
def gob0 : Critter :=
  { attack_power := 3, hit_points := 3, race := Race.GOBLIN, x := 1, y := 2, id := 1 }

/-- Two adjacent critters on the fenced board; the battle lasts one complete
round plus the incomplete final round. -/
def exCs : CritterMap := [(((1 : Int), (1 : Int)), elf0), (((1 : Int), (2 : Int)), gob0)]

/-- The fixture packaged as a game. -/
def exGame4 : Game := { board := exBoard4, critters := exCs }

/-! ### Basic facts about the critter dictionary -/

theorem cmFind?_eq_some_mem {cs : CritterMap} {p : Pos} {c : Critter}
    (h : cmFind? cs p = some c) : (p, c) ∈ cs := by
  induction cs with
  | nil => simp [cmFind?] at h
  | cons q rest ih =>
    rw [cmFind?] at h
    by_cases hq : q.1 = p
    · simp [hq] at h
      cases q
      subst hq h
      exact List.mem_cons_self _ _
    · simp [hq] at h
      exact List.mem_cons_of_mem _ (ih h)

theorem cmFind?_eq_none_iff {cs : CritterMap} {p : Pos} :
    cmFind? cs p = none ↔ ∀ q ∈ cs, q.1 ≠ p := by
  induction cs with
  | nil => simp [cmFind?]
  | cons q rest ih =>
    rw [cmFind?]
    by_cases hq : q.1 = p
    · simp [hq]
    · simp [hq, ih]

/-! ### C1: the value returned by `Game.play` -/

/-- C1.  For every map and critter configuration on which the simulation
terminates, `Game.play` returns exactly the pair (number of completed rounds
multiplied by the sum of the survivors' hit points, number of surviving
elves), read off from the state in which the round loop stopped. -/
theorem C1_play_outcome (g : Game) (fuel : Nat) (res : Int × Nat) :
    play g fuel = some res ↔
      ∃ rounds final, playLoop g.board fuel g.critters 0 = some (rounds, final) ∧
        res = ((rounds : Int) * sumHP final, countRace Race.ELF final) := by
  unfold play playFrom
  cases h : playLoop g.board fuel g.critters 0 with
  | none => simp
  | some rf =>
    cases rf with
    | mk rounds final =>
      constructor
      · intro hres
        exact ⟨rounds, final, rfl, by simpa using hres.symm⟩
      · rintro ⟨r2, f2, h2, hres⟩
        cases h2
        simp [hres]

/-- C1 exercised on the concrete fixture: the loop stops after one complete
round with a lone 3-hit-point elf, and `play` returns `(1 * 3, 1)`. -/
theorem C1_play_outcome_witness : play exGame4 2 = some (3, 1) :=
  (C1_play_outcome exGame4 2 (3, 1)).mpr
    ⟨1, [(((1 : Int), (1 : Int)), elf0)], by decide, by decide⟩

/-! ### C8: determinism -/

/-- C8.  `Game.play` is deterministic: two runs on the same map with the same
critters and attack powers return the same result (the simulation reads no
randomness source). -/
theorem C8_deterministic (g : Game) (fuel : Nat) (r1 r2 : Option (Int × Nat))
    (h1 : play g fuel = r1) (h2 : play g fuel = r2) : r1 = r2 :=
  h1 ▸ h2 ▸ rfl

/-- C8 exercised on the concrete fixture. -/
theorem C8_deterministic_witness :
    (some ((3 : Int), (1 : Nat)) : Option (Int × Nat)) = some (3, 1) :=
  C8_deterministic exGame4 2 _ _ (by decide) (by decide)

/-! ### C10: the bounds check of `can_be_occupied` -/

/-- C10.  The claim says `can_be_occupied` returns `False` for positions just
outside the board without an out-of-range access; in fact the guard uses
`<=` against the lengths, so `x = len(board)` and `y = len(board[0])` pass
the guard and the subsequent indexing raises `IndexError` (modelled `none`),
while more distant or negative positions do return `False`. -/
theorem C10_boundary_index_error :
    can_be_occupied exBoard4 [] ((4 : Int), (0 : Int)) = none ∧
    can_be_occupied exBoard4 [] ((0 : Int), (4 : Int)) = none ∧
    can_be_occupied exBoard4 [] ((-1 : Int), (0 : Int)) = some false ∧
    can_be_occupied exBoard4 [] ((0 : Int), (-1 : Int)) = some false ∧
    can_be_occupied exBoard4 [] ((5 : Int), (0 : Int)) = some false ∧
    can_be_occupied exBoard4 [] ((0 : Int), (5 : Int)) = some false := by
  decide

/-! ### C2: termination check and round counting -/

/-- The surviving critters after the fixture's first complete round. -/
def exCs1 : CritterMap := [(((1 : Int), (1 : Int)), elf0)]

/-- C2.  (i) A round that ended early (some unit's turn began with no living
enemy anywhere) terminates the simulation without counting that round;
(ii) a round in which every unit in the turn order got to act increments the
round counter by exactly one and continues; (iii) the early-end flag really
means that the scan stopped at a still-living unit that found no enemy: the
final state contains a unit from the turn order with zero living enemies,
and the state is returned unchanged from that moment. -/
theorem C2_round_counting (board : Board) (cs cs' : CritterMap) (fuel rounds : Nat) :
    (playRound board cs fuel = some (cs', false) →
      playLoop board (fuel + 1) cs rounds = some (rounds, cs')) ∧
    (playRound board cs fuel = some (cs', true) →
      playLoop board (fuel + 1) cs rounds = playLoop board fuel cs' (rounds + 1)) ∧
    (∀ order, runTurns board fuel order cs = some (cs', false) →
      ∃ c ∈ cmValues cs', c.id ∈ order ∧
        ((cmValues cs').filter (fun e => e.race ≠ c.race)).length = 0) := by
  refine ⟨fun h => ?_, fun h => ?_, fun order => ?_⟩
  · rw [playLoop, h]
    rfl
  · rw [playLoop, h]
    rfl
  · clear rounds
    induction order generalizing cs with
    | nil => intro h; simp [runTurns] at h
    | cons cid rest ih =>
      intro h
      rw [runTurns] at h
      cases hfind : (cmValues cs).find? (fun c => c.id = cid) with
      | none =>
        simp only [hfind] at h
        obtain ⟨c, hc, hid, hlen⟩ := ih cs h
        exact ⟨c, hc, List.mem_cons_of_mem _ hid, hlen⟩
      | some c =>
        simp only [hfind] at h
        by_cases hempty : ((cmValues cs).filter (fun e => e.race ≠ c.race)).length = 0
        · rw [if_pos hempty] at h
          have hcs : cs = cs' := by
            simpa using h
          subst hcs
          have hcid : c.id = cid := by simpa using List.find?_some hfind
          exact ⟨c, List.mem_of_find?_eq_some hfind, by simp [hcid], hempty⟩
        · rw [if_neg hempty] at h
          cases hact : critterAct board cs c fuel with
          | none => rw [hact] at h; exact Option.noConfusion h
          | some cs2 =>
            simp only [hact] at h
            obtain ⟨c2, hc2, hid, hlen⟩ := ih cs2 h
            exact ⟨c2, hc2, List.mem_cons_of_mem _ hid, hlen⟩

/-- C2 exercised on the concrete fixture: the complete first round increments
the counter, the incomplete second round stops without counting, and at the
stop the lone elf in the turn order has zero living enemies. -/
theorem C2_round_counting_witness :
    playLoop exBoard4 1 exCs1 0 = some (0, exCs1) ∧
    playLoop exBoard4 1 exCs 0 = playLoop exBoard4 0 exCs1 1 ∧
    (∃ c ∈ cmValues exCs1, c.id ∈ [0] ∧
      ((cmValues exCs1).filter (fun e => e.race ≠ c.race)).length = 0) :=
  ⟨(C2_round_counting exBoard4 exCs1 exCs1 0 0).1 (by decide),
   (C2_round_counting exBoard4 exCs exCs1 0 0).2.1 (by decide),
   (C2_round_counting exBoard4 exCs1 exCs1 0 0).2.2 [0] (by decide)⟩

/-! ### Heads of stable sorts

`Game.play` always takes the first element of a stably sorted list, so we
characterise that head: it is the first element (in original order) that
compares `le` to every element of the list. -/

theorem foldl_insertSorted_head? {A : Type} (le : A → A → Bool) :
    ∀ (xs : List A) (h : A) (t : List A),
      (xs.foldl (fun acc a => insertSorted le a acc) (h :: t)).head? =
        some (xs.foldl (fun b a => if le b a then b else a) h)
  | [], _, _ => rfl
  | a :: xs, h, t => by
    rw [List.foldl_cons, List.foldl_cons]
    show (xs.foldl _ (insertSorted le a (h :: t))).head? = _
    rw [insertSorted]
    by_cases hle : le h a
    · rw [if_pos hle, if_pos hle]
      exact foldl_insertSorted_head? le xs h _
    · rw [if_neg hle, if_neg hle]
      exact foldl_insertSorted_head? le xs a _

theorem sortByBool_head? {A : Type} (le : A → A → Bool) (x : A) (xs : List A) :
    (sortByBool le (x :: xs)).head? =
      some (xs.foldl (fun b a => if le b a then b else a) x) := by
  unfold sortByBool
  rw [List.foldl_cons]
  exact foldl_insertSorted_head? le xs x []

/-- The running minimum of a fold with `pick b a = if le b a then b else a`
is the first element of the list that compares `le` to all elements, given
totality and transitivity of `le` on the list's elements. -/
theorem foldl_pick_spec {A : Type} (le : A → A → Bool) (xs : List A) :
    ∀ (x : A),
      (∀ a ∈ x :: xs, ∀ b ∈ x :: xs, le a b = true ∨ le b a = true) →
      (∀ a ∈ x :: xs, ∀ b ∈ x :: xs, ∀ c ∈ x :: xs,
        le a b = true → le b c = true → le a c = true) →
      ∃ l1 l2, x :: xs = l1 ++ (xs.foldl (fun b a => if le b a then b else a) x) :: l2 ∧
        (∀ y ∈ x :: xs, le (xs.foldl (fun b a => if le b a then b else a) x) y = true) ∧
        (∀ z ∈ l1, le z (xs.foldl (fun b a => if le b a then b else a) x) = false) := by
  induction xs with
  | nil =>
    intro x htot _
    refine ⟨[], [], rfl, ?_, by simp⟩
    intro y hy
    simp only [List.foldl_nil]
    simp only [List.mem_singleton] at hy
    rw [hy]
    rcases htot x (by simp) x (by simp) with h | h <;> exact h
  | cons a xs ih =>
    intro x htot htrans
    have lift1 : ∀ p ∈ x :: xs, p ∈ x :: a :: xs := by
      intro p hp
      rcases List.mem_cons.mp hp with h | h
      · exact h ▸ List.mem_cons_self _ _
      · exact List.mem_cons_of_mem _ (List.mem_cons_of_mem _ h)
    have lift2 : ∀ p ∈ a :: xs, p ∈ x :: a :: xs := fun p hp => List.mem_cons_of_mem _ hp
    rw [List.foldl_cons]
    by_cases hxa : le x a = true
    · rw [if_pos hxa]
      obtain ⟨l1, l2, hsplit, hmin, hl1⟩ := ih x
        (fun p hp q hq => htot p (lift1 p hp) q (lift1 q hq))
        (fun p hp q hq r hr => htrans p (lift1 p hp) q (lift1 q hq) r (lift1 r hr))
      generalize hm : xs.foldl (fun b a => if le b a then b else a) x = m at hsplit hmin hl1 ⊢
      have hmFull : m ∈ x :: a :: xs := lift1 m (by rw [hsplit]; simp)
      cases l1 with
      | nil =>
        simp only [List.nil_append] at hsplit
        have hxm : x = m := (List.cons_eq_cons.mp hsplit).1
        refine ⟨[], a :: xs, by rw [List.nil_append, hxm], ?_, by simp⟩
        intro y hy
        rcases List.mem_cons.mp hy with hy | hy
        · rw [hy]; exact hmin x (by simp)
        rcases List.mem_cons.mp hy with hy | hy
        · rw [hy, ← hxm]; exact hxa
        · exact hmin y (List.mem_cons_of_mem _ hy)
      | cons w l1t =>
        rw [List.cons_append] at hsplit
        have hw : x = w := (List.cons_eq_cons.mp hsplit).1
        have hxs : xs = l1t ++ m :: l2 := (List.cons_eq_cons.mp hsplit).2
        refine ⟨x :: a :: l1t, l2, by rw [hxs]; rfl, ?_, ?_⟩
        · intro y hy
          rcases List.mem_cons.mp hy with hy | hy
          · rw [hy]; exact hmin x (by simp)
          rcases List.mem_cons.mp hy with hy | hy
          · rw [hy]
            exact htrans m hmFull x (by simp) a (by simp)
              (hw ▸ hmin x (by simp)) hxa
          · exact hmin y (List.mem_cons_of_mem _ hy)
        · intro z hz
          rcases List.mem_cons.mp hz with hz | hz
          · rw [hz]; exact hw ▸ hl1 w (by simp)
          rcases List.mem_cons.mp hz with hz | hz
          · rw [hz]
            by_contra hcon
            rw [Bool.not_eq_false] at hcon
            have hxmt : le x m = true :=
              htrans x (by simp) a (by simp) m hmFull hxa hcon
            have hxmf : le x m = false := hw ▸ hl1 w (by simp)
            rw [hxmf] at hxmt
            exact Bool.false_ne_true hxmt
          · exact hl1 z (List.mem_cons_of_mem _ hz)
    · rw [if_neg hxa]
      obtain ⟨l1, l2, hsplit, hmin, hl1⟩ := ih a
        (fun p hp q hq => htot p (lift2 p hp) q (lift2 q hq))
        (fun p hp q hq r hr => htrans p (lift2 p hp) q (lift2 q hq) r (lift2 r hr))
      generalize hm : xs.foldl (fun b a => if le b a then b else a) a = m at hsplit hmin hl1 ⊢
      have hmFull : m ∈ x :: a :: xs := lift2 m (by rw [hsplit]; simp)
      have hxm_false : le x m = false := by
        by_contra hcon
        rw [Bool.not_eq_false] at hcon
        have : le x a = true :=
          htrans x (by simp) m hmFull a (by simp) hcon (hmin a (by simp))
        exact hxa this
      refine ⟨x :: l1, l2, by rw [hsplit]; rfl, ?_, ?_⟩
      · intro y hy
        rcases List.mem_cons.mp hy with hy | hy
        · rw [hy]
          rcases htot x (by simp) m hmFull with h | h
          · rw [hxm_false] at h; exact absurd h Bool.false_ne_true
          · exact h
        · exact hmin y hy
      · intro z hz
        rcases List.mem_cons.mp hz with hz | hz
        · rw [hz]; exact hxm_false
        · exact hl1 z hz

/-- The head of a stable sort is the first element comparing `le` to all,
for `le` total and transitive on the list. -/
theorem sortByBool_head_first_min {A : Type} (le : A → A → Bool) (x : A) (xs : List A)
    (p : A) (rest : List A)
    (htot : ∀ a ∈ x :: xs, ∀ b ∈ x :: xs, le a b = true ∨ le b a = true)
    (htrans : ∀ a ∈ x :: xs, ∀ b ∈ x :: xs, ∀ c ∈ x :: xs,
      le a b = true → le b c = true → le a c = true)
    (h : sortByBool le (x :: xs) = p :: rest) :
    ∃ l1 l2, x :: xs = l1 ++ p :: l2 ∧ (∀ y ∈ x :: xs, le p y = true) ∧
      (∀ z ∈ l1, le z p = false) := by
  have h1 := sortByBool_head? le x xs
  rw [h] at h1
  simp only [List.head?_cons, Option.some.injEq] at h1
  obtain ⟨l1, l2, hsplit, hmin, hl1⟩ := foldl_pick_spec le xs x htot htrans
  rw [← h1] at hsplit hmin hl1
  exact ⟨l1, l2, hsplit, hmin, hl1⟩

/-! ### C3: attack-target selection -/

theorem mem_adjacent_enemies {cs : CritterMap} {tile : Pos} {race : Race} {q : Pos}
    (h : q ∈ adjacent_enemies cs tile race) :
    ∃ cq, cmFind? cs q = some cq ∧ cq.race ≠ race := by
  unfold adjacent_enemies at h
  rw [List.mem_filterMap] at h
  obtain ⟨d, _, hd⟩ := h
  dsimp only at hd
  cases hfind : cmFind? cs (tile.1 + d.1, tile.2 + d.2) with
  | none => rw [hfind] at hd; exact Option.noConfusion hd
  | some c =>
    rw [hfind] at hd
    by_cases hrace : c.race ≠ race
    · simp only [if_pos hrace, Option.some.injEq] at hd
      exact ⟨c, hd ▸ hfind, hrace⟩
    · simp only [if_neg hrace] at hd
      exact Option.noConfusion hd

theorem hpLe_of_lookups {cs : CritterMap} {p q : Pos} {cp cq : Critter}
    (hp : cmFind? cs p = some cp) (hq : cmFind? cs q = some cq) :
    hpLe cs p q = decide (cp.hit_points ≤ cq.hit_points) := by
  unfold hpLe
  rw [hp, hq]

/-- C3, amended.  When an acting unit has at least one adjacent enemy, the
code attacks the head of the stable sort of `adjacent_enemies` by hit
points: an adjacent enemy with minimal hit points, with ties broken by the
probe order of `Game.delta` (left, up, down, right), i.e. every enemy probed
earlier has strictly more hit points. -/
theorem C3_attack_selection (board : Board) (cs : CritterMap) (c : Critter)
    (fuel : Nat) (p : Pos) (rest : List Pos)
    (h : sortByBool (hpLe cs) (adjacent_enemies cs (c.x, c.y) c.race) = p :: rest) :
    critterAct board cs c fuel = attackAt cs c p ∧
    ∃ cp, cmFind? cs p = some cp ∧ cp.race ≠ c.race ∧
      (∀ q ∈ adjacent_enemies cs (c.x, c.y) c.race, ∀ cq, cmFind? cs q = some cq →
        cp.hit_points ≤ cq.hit_points) ∧
      ∃ l1 l2, adjacent_enemies cs (c.x, c.y) c.race = l1 ++ p :: l2 ∧
        ∀ z ∈ l1, ∀ cz, cmFind? cs z = some cz → cp.hit_points < cz.hit_points := by
  constructor
  · rw [critterAct, h]
  · cases hadj : adjacent_enemies cs (c.x, c.y) c.race with
    | nil => rw [hadj] at h; exact absurd h (by simp [sortByBool])
    | cons x xs =>
      rw [hadj] at h
      have hmemlem : ∀ q ∈ x :: xs, ∃ cq, cmFind? cs q = some cq ∧ cq.race ≠ c.race :=
        fun q hq => mem_adjacent_enemies (hadj ▸ hq : q ∈ adjacent_enemies cs (c.x, c.y) c.race)
      have htot : ∀ a ∈ x :: xs, ∀ b ∈ x :: xs,
          hpLe cs a b = true ∨ hpLe cs b a = true := by
        intro a ha b hb
        obtain ⟨ca, hca, _⟩ := hmemlem a ha
        obtain ⟨cb, hcb, _⟩ := hmemlem b hb
        rw [hpLe_of_lookups hca hcb, hpLe_of_lookups hcb hca]
        rcases Int.le_total ca.hit_points cb.hit_points with hle | hle
        · exact Or.inl (by simpa using hle)
        · exact Or.inr (by simpa using hle)
      have htrans : ∀ a ∈ x :: xs, ∀ b ∈ x :: xs, ∀ e ∈ x :: xs,
          hpLe cs a b = true → hpLe cs b e = true → hpLe cs a e = true := by
        intro a ha b hb e he
        obtain ⟨ca, hca, _⟩ := hmemlem a ha
        obtain ⟨cb, hcb, _⟩ := hmemlem b hb
        obtain ⟨ce, hce, _⟩ := hmemlem e he
        rw [hpLe_of_lookups hca hcb, hpLe_of_lookups hcb hce, hpLe_of_lookups hca hce]
        intro h1 h2
        simp only [decide_eq_true_eq] at h1 h2 ⊢
        exact le_trans h1 h2
      obtain ⟨l1, l2, hsplit, hmin, hl1⟩ :=
        sortByBool_head_first_min (hpLe cs) x xs p rest htot htrans h
      have hpmem : p ∈ x :: xs := by rw [hsplit]; simp
      obtain ⟨cp, hcp, hrace⟩ := hmemlem p hpmem
      refine ⟨cp, hcp, hrace, ?_, l1, l2, hsplit, ?_⟩
      · intro q hq cq hcq
        have := hmin q hq
        rw [hpLe_of_lookups hcp hcq] at this
        simpa using this
      · intro z hz cz hcz
        have hzmem : z ∈ x :: xs := by rw [hsplit]; simp [hz]
        have := hl1 z hz
        rw [hpLe_of_lookups hcz hcp] at this
        simp only [decide_eq_false_iff_not, not_le] at this
        exact this

/-- A goblin one step up from the elf, 10 hit points. -/
def gobA : Critter :=
  { attack_power := 3, hit_points := 10, race := Race.GOBLIN, x := 1, y := 2, id := 1 }

/-- A goblin one step left of the elf, also 10 hit points. -/
def gobB : Critter :=
  { attack_power := 3, hit_points := 10, race := Race.GOBLIN, x := 2, y := 1, id := 2 }

/-- The acting elf at `(2, 2)`. -/
def elfC : Critter :=
  { attack_power := 3, hit_points := 200, race := Race.ELF, x := 2, y := 2, id := 0 }

/-- Two equal-hit-point goblins adjacent to the elf. -/
def cexCs : CritterMap :=
  [(((1 : Int), (2 : Int)), gobA), (((2 : Int), (1 : Int)), gobB),
   (((2 : Int), (2 : Int)), elfC)]

/-- C3 as stated is false: the elf at `(2, 2)` has two adjacent enemies with
equal (minimal) hit points at `(1, 2)` (up) and `(2, 1)` (left); reading
order prefers `(1, 2)`, but the acting elf damages `(2, 1)` — the `(1, 2)`
goblin keeps its 10 hit points while the `(2, 1)` goblin drops to 7. -/
theorem C3_counterexample :
    adjacent_enemies cexCs ((2 : Int), (2 : Int)) Race.ELF =
      [((2 : Int), (1 : Int)), ((1 : Int), (2 : Int))] ∧
    (cmFind? cexCs ((1 : Int), (2 : Int))).map (fun c => c.hit_points) = some 10 ∧
    (cmFind? cexCs ((2 : Int), (1 : Int))).map (fun c => c.hit_points) = some 10 ∧
    posLe ((1 : Int), (2 : Int)) ((2 : Int), (1 : Int)) = true ∧
    ((1 : Int), (2 : Int)) ≠ ((2 : Int), (1 : Int)) ∧
    critterAct exBoard4 cexCs elfC 0 =
      some [(((1 : Int), (2 : Int)), gobA),
            (((2 : Int), (1 : Int)),
              { attack_power := 3, hit_points := 7, race := Race.GOBLIN, x := 2, y := 1, id := 2 }),
            (((2 : Int), (2 : Int)), elfC)] := by
  decide

/-- C3 (amended) exercised on the counterexample configuration: the chosen
target is `(2, 1)`, minimal in hit points, and the earlier-probed prefix of
`adjacent_enemies` is empty. -/
theorem C3_attack_selection_witness :
    critterAct exBoard4 cexCs elfC 0 = attackAt cexCs elfC ((2 : Int), (1 : Int)) ∧
    ∃ cp, cmFind? cexCs ((2 : Int), (1 : Int)) = some cp ∧ cp.race ≠ elfC.race ∧
      (∀ q ∈ adjacent_enemies cexCs (elfC.x, elfC.y) elfC.race,
        ∀ cq, cmFind? cexCs q = some cq → cp.hit_points ≤ cq.hit_points) ∧
      ∃ l1 l2, adjacent_enemies cexCs (elfC.x, elfC.y) elfC.race = l1 ++ ((2 : Int), (1 : Int)) :: l2 ∧
        ∀ z ∈ l1, ∀ cz, cmFind? cexCs z = some cz → cp.hit_points < cz.hit_points :=
  C3_attack_selection exBoard4 cexCs elfC 0 ((2 : Int), (1 : Int)) [((1 : Int), (2 : Int))]
    (by decide)

/-! ### C7: handling of unrecognized map symbols -/

/-- Unfolding membership in `assignIds`: every stored critter carries its
key's coordinates, its source race, and the default stats. -/
theorem mem_assignIds {prs : List (Pos × Race)} {i : Nat} {q : Pos × Critter}
    (h : q ∈ assignIds i prs) :
    ∃ pr ∈ prs, q.1 = pr.1 ∧ q.2.race = pr.2 ∧ q.2.x = pr.1.1 ∧ q.2.y = pr.1.2 ∧
      q.2.attack_power = 3 ∧ q.2.hit_points = 200 := by
  induction prs generalizing i with
  | nil => simp [assignIds] at h
  | cons pr rest ih =>
    rw [assignIds] at h
    rcases List.mem_cons.mp h with h | h
    · subst h
      exact ⟨pr, List.mem_cons_self _ _, rfl, rfl, rfl, rfl, rfl, rfl⟩
    · obtain ⟨pr', hm, hrest⟩ := ih h
      exact ⟨pr', List.mem_cons_of_mem _ hm, hrest⟩

theorem mem_rowCrittersFrom {row : Int} {p : Pos × Race} :
    ∀ (chars : List Char) (col : Nat), p ∈ rowCrittersFrom row col chars →
      ∃ (j : Nat) (ch : Char), chars[j]? = some ch ∧ charRace ch = some p.2 ∧
        p.1 = (row, ((col + j : Nat) : Int))
  | [], col, h => by simp [rowCrittersFrom] at h
  | ch :: rest, col, h => by
    rw [rowCrittersFrom] at h
    cases hr : charRace ch with
    | some r =>
      rw [hr] at h
      rcases List.mem_cons.mp h with h | h
      · refine ⟨0, ch, by simp, ?_, ?_⟩
        · rw [h]; exact hr
        · rw [h]; simp
      · obtain ⟨j, ch', h1, h2, h3⟩ := mem_rowCrittersFrom rest (col + 1) h
        refine ⟨j + 1, ch', by simpa using h1, h2, ?_⟩
        rw [h3]
        have : col + 1 + j = col + (j + 1) := by omega
        rw [this]
    | none =>
      rw [hr] at h
      obtain ⟨j, ch', h1, h2, h3⟩ := mem_rowCrittersFrom rest (col + 1) h
      refine ⟨j + 1, ch', by simpa using h1, h2, ?_⟩
      rw [h3]
      have : col + 1 + j = col + (j + 1) := by omega
      rw [this]

theorem mem_placedCritters {p : Pos × Race} :
    ∀ (ls : List (List Char)) (row : Int), p ∈ placedCritters row ls →
      ∃ (k : Nat) (chars : List Char), ls[k]? = some chars ∧
        p ∈ rowCritterRaces (row + (k : Int)) chars
  | [], _, h => by simp [placedCritters] at h
  | chars :: rest, row, h => by
    rw [placedCritters] at h
    rcases List.mem_append.mp h with h | h
    · exact ⟨0, chars, by simp, by simpa using h⟩
    · obtain ⟨k, chars', h1, h2⟩ := mem_placedCritters rest (row + 1) h
      refine ⟨k + 1, chars', by simpa using h1, ?_⟩
      have heq : row + 1 + (k : Int) = row + ((k : Nat) + 1 : Nat) := by push_cast; ring
      rw [heq] at h2
      exact h2

/-- Every critter in a parsed game comes from an `E`/`G` character of the
input at the critter's own coordinates. -/
theorem gameInit_critter_source {data : String} {p : Pos} {cr : Critter}
    (h : cmFind? (gameInit data).critters p = some cr) :
    ∃ (rn cn : Nat) (ln : List Char) (ch : Char),
      (splitLines data)[rn]? = some ln ∧ ln[cn]? = some ch ∧
      (charRace ch).isSome ∧ p = ((rn : Int), (cn : Int)) := by
  have hmem := cmFind?_eq_some_mem h
  have hmem' : (p, cr) ∈ assignIds 0 (placedCritters 0 (splitLines data)) := hmem
  obtain ⟨pr, hpr, hkey, -, -, -, -, -⟩ := mem_assignIds hmem'
  obtain ⟨k, chars, hls, hrow⟩ := mem_placedCritters _ _ hpr
  obtain ⟨j, ch, hj, hrace, hpos⟩ := mem_rowCrittersFrom chars 0 hrow
  refine ⟨k, j, chars, ch, hls, hj, by rw [hrace]; rfl, ?_⟩
  show p = ((k : Int), (j : Int))
  have hkey' : p = pr.1 := hkey
  rw [hkey', hpos]
  simp

/-- C7, amended.  Parsing never fails: a character other than `.`, `E`, `G`
is recorded as a wall tile, no unit is created there, and the simulation
starts normally on the parsed game. -/
theorem C7_unrecognized_symbols (data : String) (r c : Nat) (ln : List Char) (ch : Char)
    (hline : (splitLines data)[r]? = some ln) (hch : ln[c]? = some ch)
    (h1 : ch ≠ '.') (h2 : ch ≠ 'E') (h3 : ch ≠ 'G') :
    ∃ row, (gameInit data).board[r]? = some row ∧ row[c]? = some Terrain.WALL ∧
      cmFind? (gameInit data).critters ((r : Int), (c : Int)) = none := by
  refine ⟨ln.map charTerrain, ?_, ?_, ?_⟩
  · show ((splitLines data).map (fun chars => chars.map charTerrain))[r]? = _
    rw [List.getElem?_map, hline]
    rfl
  · rw [List.getElem?_map, hch]
    simp only [Option.map_some', Option.some.injEq]
    rw [charTerrain]
    simp [h1, h2, h3]
  · cases hfind : cmFind? (gameInit data).critters ((r : Int), (c : Int)) with
    | none => rfl
    | some cr =>
      obtain ⟨rn, cn, ln', ch', hline', hch', hrace, hpeq⟩ := gameInit_critter_source hfind
      have hr : r = rn := by
        have h := congrArg Prod.fst hpeq
        dsimp only at h
        exact_mod_cast h
      have hc : c = cn := by
        have h := congrArg Prod.snd hpeq
        dsimp only at h
        exact_mod_cast h
      rw [← hr] at hline'
      rw [hline] at hline'
      cases hline'
      rw [← hc] at hch'
      rw [hch] at hch'
      cases hch'
      rw [show charRace ch = none by rw [charRace]; simp [h2, h3]] at hrace
      exact absurd hrace (by simp)

/-- C7 as stated is false: a map containing the unrecognized symbol `?`
parses without any error — the `?` cells become walls — and the simulation
runs to a normal result on it. -/
theorem C7_counterexample :
    gameInit "?EG?" =
      { board := [[Terrain.WALL, Terrain.FLOOR, Terrain.FLOOR, Terrain.WALL]],
        critters := [(((0 : Int), (1 : Int)), mkCritter Race.ELF 0 1 0),
                     (((0 : Int), (2 : Int)), mkCritter Race.GOBLIN 0 2 1)] } ∧
    play (gameInit "?EG?") 200 = some (134, 1) := by
  decide

/-- C7 (amended) exercised at the `?` cell of the counterexample map. -/
theorem C7_unrecognized_symbols_witness :
    ∃ row, (gameInit "?EG?").board[0]? = some row ∧ row[0]? = some Terrain.WALL ∧
      cmFind? (gameInit "?EG?").critters ((0 : Int), (0 : Int)) = none :=
  C7_unrecognized_symbols "?EG?" 0 0 ['?', 'E', 'G', '?'] '?'
    (by decide) (by decide) (by decide) (by decide) (by decide)

/-! ### The occupancy invariants (C5) and the supporting dictionary lemmas -/

/-- Position `p` is on the board and is floor terrain. -/
def floorAt (board : Board) (p : Pos) : Prop :=
  0 ≤ p.1 ∧ 0 ≤ p.2 ∧
    (board[p.1.toNat]?.bind (fun row => row[p.2.toNat]?)) = some Terrain.FLOOR

instance (board : Board) (p : Pos) : Decidable (floorAt board p) := by
  unfold floorAt
  infer_instance

/-- The state invariants of the simulation: distinct occupied positions,
every occupied position is floor, and every unit's recorded coordinates
equal its key in the occupancy map. -/
def Inv (board : Board) (cs : CritterMap) : Prop :=
  (cmKeys cs).Nodup ∧ (∀ q ∈ cs, floorAt board q.1) ∧
    (∀ q ∈ cs, q.2.x = q.1.1 ∧ q.2.y = q.1.2)

instance (board : Board) (cs : CritterMap) : Decidable (Inv board cs) := by
  unfold Inv
  infer_instance

theorem cmErase_sublist (cs : CritterMap) (p : Pos) : List.Sublist (cmErase cs p) cs :=
  List.filter_sublist _

theorem mem_of_mem_cmErase {cs : CritterMap} {p : Pos} {q : Pos × Critter}
    (h : q ∈ cmErase cs p) : q ∈ cs :=
  (List.mem_filter.mp h).1

theorem cmUpdate_cons (q : Pos × Critter) (rest : CritterMap) (p : Pos) (c : Critter) :
    cmUpdate (q :: rest) p c = (if q.1 = p then (p, c) else q) :: cmUpdate rest p c :=
  rfl

theorem cmErase_cons (q : Pos × Critter) (rest : CritterMap) (p : Pos) :
    cmErase (q :: rest) p =
      if q.1 = p then cmErase rest p else q :: cmErase rest p := by
  unfold cmErase
  rw [List.filter_cons]
  by_cases h : q.1 = p <;> simp [h]

theorem countRace_cons (r : Race) (q : Pos × Critter) (rest : CritterMap) :
    countRace r (q :: rest) = (if q.2.race = r then 1 else 0) + countRace r rest := by
  unfold countRace cmValues
  rw [List.map_cons, List.filter_cons]
  by_cases h : q.2.race = r <;> simp [h, Nat.add_comm]

theorem countRace_append (r : Race) (cs1 cs2 : CritterMap) :
    countRace r (cs1 ++ cs2) = countRace r cs1 + countRace r cs2 := by
  unfold countRace cmValues
  rw [List.map_append, List.filter_append, List.length_append]

theorem cmKeys_cmUpdate (cs : CritterMap) (p : Pos) (c : Critter) :
    cmKeys (cmUpdate cs p c) = cmKeys cs := by
  unfold cmKeys cmUpdate
  rw [List.map_map]
  apply List.map_congr_left
  intro q _
  by_cases hq : q.1 = p
  · simp [hq]
  · simp [hq]

theorem mem_cmUpdate {cs : CritterMap} {p : Pos} {c : Critter} {q : Pos × Critter}
    (h : q ∈ cmUpdate cs p c) : q = (p, c) ∨ q ∈ cs := by
  unfold cmUpdate at h
  rw [List.mem_map] at h
  obtain ⟨q0, hq0, rfl⟩ := h
  by_cases hq : q0.1 = p
  · rw [if_pos hq]
    exact Or.inl rfl
  · rw [if_neg hq]
    exact Or.inr hq0

theorem length_cmUpdate (cs : CritterMap) (p : Pos) (c : Critter) :
    (cmUpdate cs p c).length = cs.length :=
  List.length_map _ _

theorem isSome_cmFind?_of_mem {cs : CritterMap} {p : Pos} {v : Critter}
    (h : (p, v) ∈ cs) : (cmFind? cs p).isSome := by
  induction cs with
  | nil => simp at h
  | cons q rest ih =>
    obtain ⟨qp, qc⟩ := q
    rw [cmFind?]
    by_cases hq : qp = p
    · rw [if_pos hq]; rfl
    · rw [if_neg hq]
      rcases List.mem_cons.mp h with h | h
      · exact absurd (congrArg Prod.fst h).symm hq
      · exact ih h

theorem countRace_le_of_sublist {r : Race} {cs' cs : CritterMap}
    (h : List.Sublist cs' cs) : countRace r cs' ≤ countRace r cs := by
  unfold countRace cmValues
  exact ((h.map _).filter _).length_le

theorem cmUpdate_of_forall_ne {cs : CritterMap} {p : Pos} {c : Critter}
    (h : ∀ q ∈ cs, q.1 ≠ p) : cmUpdate cs p c = cs := by
  induction cs with
  | nil => rfl
  | cons q rest ih =>
    rw [cmUpdate_cons, if_neg (h q (List.mem_cons_self _ _))]
    rw [ih (fun q hq => h q (List.mem_cons_of_mem _ hq))]

theorem notMemKeys_of_cmFind?_none {cs : CritterMap} {p : Pos}
    (h : cmFind? cs p = none) : p ∉ cmKeys cs := by
  intro hmem
  unfold cmKeys at hmem
  rw [List.mem_map] at hmem
  obtain ⟨q, hq, hkey⟩ := hmem
  exact (cmFind?_eq_none_iff.mp h q hq) hkey

theorem countRace_cmUpdate {cs : CritterMap} {p : Pos} {c v : Critter} {r : Race}
    (hnd : (cmKeys cs).Nodup) (hfind : cmFind? cs p = some v) (hrace : c.race = v.race) :
    countRace r (cmUpdate cs p c) = countRace r cs := by
  induction cs with
  | nil => rfl
  | cons q rest ih =>
    obtain ⟨qp, qc⟩ := q
    rw [cmFind?] at hfind
    unfold cmKeys at hnd
    rw [List.map_cons, List.nodup_cons] at hnd
    rw [cmUpdate_cons, countRace_cons, countRace_cons]
    by_cases hq : qp = p
    · rw [if_pos hq] at hfind
      rw [if_pos (show ((qp, qc) : Pos × Critter).1 = p from hq)]
      have hv : qc = v := by simpa using hfind
      have hrest : cmUpdate rest p c = rest := by
        apply cmUpdate_of_forall_ne
        intro q2 hq2 hcon
        exact hnd.1 (List.mem_map.mpr ⟨q2, hq2, by rw [hcon]; exact hq.symm⟩)
      rw [hrest]
      have hcr2 : ((p, c) : Pos × Critter).2.race = qc.race := by
        show c.race = qc.race
        rw [hrace, hv]
      by_cases hcr : qc.race = r
      · rw [if_pos (hcr2.trans hcr), if_pos hcr]
      · rw [if_neg (fun hcon => hcr (hcr2.symm.trans hcon)), if_neg hcr]
    · rw [if_neg hq] at hfind
      rw [if_neg (show ¬ ((qp, qc) : Pos × Critter).1 = p from hq)]
      rw [ih hnd.2 hfind]

theorem countRace_cmErase_mem {cs : CritterMap} {p : Pos} {v : Critter} {r : Race}
    (hnd : (cmKeys cs).Nodup) (hmem : (p, v) ∈ cs) :
    countRace r cs = countRace r (cmErase cs p) + (if v.race = r then 1 else 0) := by
  induction cs with
  | nil => simp at hmem
  | cons q rest ih =>
    obtain ⟨qp, qc⟩ := q
    unfold cmKeys at hnd
    rw [List.map_cons, List.nodup_cons] at hnd
    rw [cmErase_cons, countRace_cons]
    rcases List.mem_cons.mp hmem with h | h
    · have h1 : qp = p := (congrArg Prod.fst h).symm
      have h2 : qc = v := (congrArg Prod.snd h).symm
      rw [if_pos (show ((qp, qc) : Pos × Critter).1 = p from h1)]
      have hrest : cmErase rest p = rest := by
        unfold cmErase
        apply List.filter_eq_self.mpr
        intro q2 hq2
        simp only [decide_eq_true_eq]
        intro hcon
        exact hnd.1 (List.mem_map.mpr ⟨q2, hq2, by rw [hcon]; exact h1.symm⟩)
      rw [hrest, h2, Nat.add_comm]
    · have hqp : qp ≠ p := by
        intro hcon
        apply hnd.1
        rw [hcon]
        have : (p, v).1 ∈ List.map Prod.fst rest := List.mem_map_of_mem Prod.fst h
        exact this
      rw [if_neg (show ¬ ((qp, qc) : Pos × Critter).1 = p from hqp)]
      rw [countRace_cons, ih hnd.2 h]
      omega

theorem length_cmErase_mem {cs : CritterMap} {p : Pos} {v : Critter}
    (hnd : (cmKeys cs).Nodup) (hmem : (p, v) ∈ cs) :
    cs.length = (cmErase cs p).length + 1 := by
  induction cs with
  | nil => simp at hmem
  | cons q rest ih =>
    obtain ⟨qp, qc⟩ := q
    unfold cmKeys at hnd
    rw [List.map_cons, List.nodup_cons] at hnd
    rw [cmErase_cons]
    rcases List.mem_cons.mp hmem with h | h
    · have h1 : qp = p := (congrArg Prod.fst h).symm
      rw [if_pos (show ((qp, qc) : Pos × Critter).1 = p from h1)]
      have hrest : cmErase rest p = rest := by
        unfold cmErase
        apply List.filter_eq_self.mpr
        intro q2 hq2
        simp only [decide_eq_true_eq]
        intro hcon
        exact hnd.1 (List.mem_map.mpr ⟨q2, hq2, by rw [hcon]; exact h1.symm⟩)
      rw [hrest]
      simp
    · have hqp : qp ≠ p := by
        intro hcon
        apply hnd.1
        rw [hcon]
        have : (p, v).1 ∈ List.map Prod.fst rest := List.mem_map_of_mem Prod.fst h
        exact this
      rw [if_neg (show ¬ ((qp, qc) : Pos × Critter).1 = p from hqp)]
      rw [List.length_cons, List.length_cons, ih hnd.2 h]

/-- A successful `can_be_occupied` check means: in-bounds floor terrain, not
occupied. -/
theorem can_be_occupied_eq_true {board : Board} {cs : CritterMap} {p : Pos}
    (h : can_be_occupied board cs p = some true) :
    floorAt board p ∧ cmFind? cs p = none := by
  unfold can_be_occupied at h
  dsimp only at h
  by_cases h1 : ¬ (0 ≤ p.1)
  · rw [if_pos h1] at h; exact absurd h (by simp)
  rw [if_neg h1] at h
  by_cases h2 : ¬ (p.1 ≤ (board.length : Int))
  · rw [if_pos h2] at h; exact absurd h (by simp)
  rw [if_neg h2] at h
  by_cases h3 : ¬ (0 ≤ p.2)
  · rw [if_pos h3] at h; exact absurd h (by simp)
  rw [if_neg h3] at h
  cases hb0 : board[0]? with
  | none => rw [hb0] at h; exact Option.noConfusion h
  | some row0 =>
    simp only [hb0] at h
    by_cases h4 : ¬ (p.2 ≤ (row0.length : Int))
    · rw [if_pos h4] at h; exact absurd h (by simp)
    rw [if_neg h4] at h
    cases hbx : board[p.1.toNat]? with
    | none => rw [hbx] at h; exact Option.noConfusion h
    | some rowx =>
      simp only [hbx] at h
      cases hby : rowx[p.2.toNat]? with
      | none => rw [hby] at h; exact Option.noConfusion h
      | some t =>
        simp only [hby] at h
        by_cases h5 : t = Terrain.FLOOR
        · rw [if_pos h5] at h
          simp only [Option.some.injEq] at h
          refine ⟨⟨not_not.mp h1, not_not.mp h3, ?_⟩, ?_⟩
          · rw [hbx]
            simp [hby, h5]
          · have hcont : cmContains cs p = false := by
              cases hc : cmContains cs p
              · rfl
              · rw [hc] at h; exact absurd h (by simp)
            unfold cmContains at hcont
            cases hfind : cmFind? cs p
            · rfl
            · rw [hfind] at hcont; exact absurd hcont (by simp)
        · rw [if_neg h5] at h; exact absurd h (by simp)

theorem Inv_cmErase {board : Board} {cs : CritterMap} (p : Pos) (h : Inv board cs) :
    Inv board (cmErase cs p) :=
  ⟨h.1.sublist ((cmErase_sublist cs p).map Prod.fst),
   fun q hq => h.2.1 q (mem_of_mem_cmErase hq),
   fun q hq => h.2.2 q (mem_of_mem_cmErase hq)⟩

/-- `attackAt` (hit-point subtraction and possible death removal) preserves
the invariants and never increases the unit count or any race count. -/
theorem attackAt_inv {board : Board} {cs : CritterMap} {atk : Critter} {p : Pos}
    {cs' : CritterMap} (hInv : Inv board cs) (h : attackAt cs atk p = some cs') :
    Inv board cs' ∧ cs'.length ≤ cs.length ∧ ∀ r, countRace r cs' ≤ countRace r cs := by
  unfold attackAt at h
  cases hfind : cmFind? cs p with
  | none => rw [hfind] at h; exact Option.noConfusion h
  | some enemy =>
    simp only [hfind] at h
    have hpmem : (p, enemy) ∈ cs := cmFind?_eq_some_mem hfind
    have hpm := hInv.2.2 _ hpmem
    have hupd : Inv board
        (cmUpdate cs p { enemy with hit_points := enemy.hit_points - atk.attack_power }) := by
      refine ⟨?_, ?_, ?_⟩
      · rw [cmKeys_cmUpdate]; exact hInv.1
      · intro q hq
        rcases mem_cmUpdate hq with rfl | hq
        · exact hInv.2.1 (p, enemy) hpmem
        · exact hInv.2.1 q hq
      · intro q hq
        rcases mem_cmUpdate hq with rfl | hq
        · exact ⟨hpm.1, hpm.2⟩
        · exact hInv.2.2 q hq
    have hlen : (cmUpdate cs p
        { enemy with hit_points := enemy.hit_points - atk.attack_power }).length
        = cs.length := length_cmUpdate cs p _
    have hcount : ∀ r, countRace r (cmUpdate cs p
        { enemy with hit_points := enemy.hit_points - atk.attack_power })
        = countRace r cs :=
      fun r => countRace_cmUpdate hInv.1 hfind rfl
    by_cases hdead : ({ enemy with hit_points := enemy.hit_points - atk.attack_power
        } : Critter).hit_points ≤ 0
    · rw [if_pos hdead] at h
      simp only [Option.some.injEq] at h
      subst h
      refine ⟨Inv_cmErase _ hupd, ?_, ?_⟩
      · exact le_trans (cmErase_sublist _ _).length_le (le_of_eq hlen)
      · intro r
        exact le_trans (countRace_le_of_sublist (cmErase_sublist _ _)) (le_of_eq (hcount r))
    · rw [if_neg hdead] at h
      simp only [Option.some.injEq] at h
      subst h
      exact ⟨hupd, le_of_eq hlen, fun r => le_of_eq (hcount r)⟩

/-- Elements kept by `filterMO` passed their check and come from the input
list. -/
theorem filterMO_mem {A : Type} {p : A → Option Bool} :
    ∀ {xs ys : List A}, filterMO p xs = some ys →
      ∀ y ∈ ys, p y = some true ∧ y ∈ xs := by
  intro xs
  induction xs with
  | nil =>
    intro ys h y hy
    rw [filterMO] at h
    simp only [Option.some.injEq] at h
    subst h
    simp at hy
  | cons a rest ih =>
    intro ys h y hy
    rw [filterMO] at h
    cases hpa : p a with
    | none => rw [hpa] at h; exact Option.noConfusion h
    | some b =>
      rw [hpa] at h
      cases hrest : filterMO p rest with
      | none => rw [hrest] at h; exact Option.noConfusion h
      | some kept =>
        rw [hrest] at h
        simp only [Option.some.injEq] at h
        subst h
        cases b with
        | true =>
          rw [if_pos rfl] at hy
          rcases List.mem_cons.mp hy with hy | hy
          · subst hy
            exact ⟨hpa, List.mem_cons_self _ _⟩
          · obtain ⟨h1, h2⟩ := ih hrest y hy
            exact ⟨h1, List.mem_cons_of_mem _ h2⟩
        | false =>
          obtain ⟨h1, h2⟩ := ih hrest y hy
          exact ⟨h1, List.mem_cons_of_mem _ h2⟩

/-- `processTiles` only ever appends candidates whose first step is the
`move` it was called with. -/
theorem processTiles_entries {board : Board} {cs : CritterMap} {race : Race}
    {move : Pos} {distance : Nat} :
    ∀ {stack covered : List Pos} {best : List Entry} {newStack : List Pos} {cont : Bool}
      {out : List Pos × List Entry × List Pos × Bool},
      processTiles board cs race move distance stack covered best newStack cont = some out →
      ∀ e ∈ out.2.1, e ∈ best ∨ e.1 = move := by
  intro stack
  induction stack with
  | nil =>
    intro covered best newStack cont out h e he
    rw [processTiles] at h
    simp only [Option.some.injEq] at h
    subst h
    exact Or.inl he
  | cons t rest ih =>
    intro covered best newStack cont out h e he
    rw [processTiles] at h
    by_cases hc : t ∈ covered
    · rw [if_pos hc] at h
      exact ih h e he
    rw [if_neg hc] at h
    by_cases hadj : (adjacent_enemies cs t race).length ≠ 0
    · rw [if_pos hadj] at h
      rcases ih h e he with hin | hmv
      · rcases List.mem_append.mp hin with hin | hin
        · exact Or.inl hin
        · simp only [List.mem_singleton] at hin
          subst hin
          exact Or.inr rfl
      · exact Or.inr hmv
    · rw [if_neg hadj] at h
      dsimp only at h
      cases hf : filterMO
          (fun s => if s ∈ covered ++ [t] then some false else can_be_occupied board cs s)
          (delta.map (fun d => (t.1 + d.1, t.2 + d.2))) with
      | none => rw [hf] at h; exact Option.noConfusion h
      | some adds =>
        rw [hf] at h
        exact ih h e he

/-- `bfsLoop` only adds candidates whose first step is `move`. -/
theorem bfsLoop_entries {board : Board} {cs : CritterMap} {race : Race} {move : Pos} :
    ∀ {fuel : Nat} {stack covered : List Pos} {best : List Entry} {distance : Nat}
      {out : List Entry},
      bfsLoop board cs race move fuel stack covered best distance = some out →
      ∀ e ∈ out, e ∈ best ∨ e.1 = move := by
  intro fuel
  induction fuel with
  | zero => intro _ _ _ _ _ h; exact absurd h (by rw [bfsLoop]; simp)
  | succ fuel ih =>
    intro stack covered best distance out h e he
    rw [bfsLoop] at h
    cases hp : processTiles board cs race move (distance + 1) stack covered best [] true with
    | none => rw [hp] at h; exact Option.noConfusion h
    | some st =>
      rw [hp] at h
      obtain ⟨covered', best', newStack, cont⟩ := st
      dsimp only at h
      by_cases hstop : (dedupKeepFirst newStack).isEmpty || !cont
      · rw [if_pos hstop] at h
        simp only [Option.some.injEq] at h
        subst h
        exact processTiles_entries hp e he
      · rw [if_neg hstop] at h
        rcases ih h e he with hin | hmv
        · exact processTiles_entries hp e hin
        · exact Or.inr hmv

/-- `bfsForMove` only adds candidates whose first step is `m`. -/
theorem bfsForMove_entries {board : Board} {cs : CritterMap} {race : Race}
    {origin : Pos} {moves : List Pos} {best : List Entry} {m : Pos} {fuel : Nat}
    {out : List Entry}
    (h : bfsForMove board cs race origin moves best m fuel = some out) :
    ∀ e ∈ out, e ∈ best ∨ e.1 = m := by
  intro e he
  unfold bfsForMove at h
  dsimp only at h
  cases hf : filterMO
      (fun s => if s ∈ moves ++ [origin] then some false else can_be_occupied board cs s)
      (delta.map (fun d => (m.1 + d.1, m.2 + d.2))) with
  | none => rw [hf] at h; exact Option.noConfusion h
  | some stack0 =>
    rw [hf] at h
    rcases bfsLoop_entries h e he with hin | hmv
    · by_cases hadj : (adjacent_enemies cs m race).length > 0
      · rw [if_pos hadj] at hin
        rcases List.mem_append.mp hin with hin | hin
        · exact Or.inl hin
        · simp only [List.mem_singleton] at hin
          subst hin
          exact Or.inr rfl
      · rw [if_neg hadj] at hin
        exact Or.inl hin
    · exact Or.inr hmv

/-- Across `bfsAllMoves`, every candidate's first step is one of `ms` (or it
was already in the accumulator). -/
theorem bfsAllMoves_entries {board : Board} {cs : CritterMap} {race : Race}
    {origin : Pos} {moves : List Pos} {fuel : Nat} :
    ∀ {ms : List Pos} {best : List Entry} {out : List Entry},
      bfsAllMoves board cs race origin moves fuel ms best = some out →
      ∀ e ∈ out, e ∈ best ∨ e.1 ∈ ms := by
  intro ms
  induction ms with
  | nil =>
    intro best out h e he
    rw [bfsAllMoves] at h
    simp only [Option.some.injEq] at h
    subst h
    exact Or.inl he
  | cons m rest ih =>
    intro best out h e he
    rw [bfsAllMoves] at h
    cases hb : bfsForMove board cs race origin moves best m fuel with
    | none => rw [hb] at h; exact Option.noConfusion h
    | some best' =>
      rw [hb] at h
      rcases ih h e he with hin | hmv
      · rcases bfsForMove_entries hb e hin with hin | hm
        · exact Or.inl hin
        · exact Or.inr (by rw [hm]; exact List.mem_cons_self _ _)
      · exact Or.inr (List.mem_cons_of_mem _ hmv)

theorem mem_insertSorted {A : Type} {le : A → A → Bool} {a x : A} :
    ∀ {l : List A}, x ∈ insertSorted le a l → x = a ∨ x ∈ l := by
  intro l
  induction l with
  | nil =>
    intro h
    rw [insertSorted] at h
    simp only [List.mem_singleton] at h
    exact Or.inl h
  | cons b bs ih =>
    intro h
    rw [insertSorted] at h
    by_cases hle : le b a
    · rw [if_pos hle] at h
      rcases List.mem_cons.mp h with h | h
      · exact Or.inr (h ▸ List.mem_cons_self _ _)
      · rcases ih h with h | h
        · exact Or.inl h
        · exact Or.inr (List.mem_cons_of_mem _ h)
    · rw [if_neg hle] at h
      rcases List.mem_cons.mp h with h | h
      · exact Or.inl h
      · exact Or.inr h

theorem mem_sortByBool {A : Type} {le : A → A → Bool} {xs : List A} {x : A}
    (h : x ∈ sortByBool le xs) : x ∈ xs := by
  unfold sortByBool at h
  suffices haux : ∀ (l : List A) (acc : List A), x ∈ l.foldl (fun acc a => insertSorted le a acc) acc →
      x ∈ acc ∨ x ∈ l by
    rcases haux xs [] h with h | h
    · simp at h
    · exact h
  intro l
  induction l with
  | nil => intro acc h; exact Or.inl h
  | cons a rest ih =>
    intro acc h
    rw [List.foldl_cons] at h
    rcases ih _ h with h | h
    · rcases mem_insertSorted h with h | h
      · exact Or.inr (h ▸ List.mem_cons_self _ _)
      · exact Or.inl h
    · exact Or.inr (List.mem_cons_of_mem _ h)

/-- The move chosen by the three-stage selection is the first step of one of
the recorded candidates. -/
theorem selectBestMove_mem {best : List Entry} {bm : Pos}
    (h : selectBestMove best = some bm) : ∃ e ∈ best, e.1 = bm := by
  unfold selectBestMove at h
  cases best with
  | nil => exact Option.noConfusion h
  | cons e es =>
    dsimp only at h
    cases h2s : sortByBool (fun a b => posLe a.2.2 b.2.2)
        ((e :: es).filter (fun b =>
          b.2.1 = es.foldl (fun acc b => Nat.min acc b.2.1) e.2.1)) with
    | nil => rw [h2s] at h; exact Option.noConfusion h
    | cons f fs =>
      rw [h2s] at h
      dsimp only at h
      cases h3s : sortByBool (fun a b => posLe a.1 b.1)
          ((f :: fs).filter (fun b => b.2.2 = f.2.2)) with
      | nil => rw [h3s] at h; exact Option.noConfusion h
      | cons g gs =>
        rw [h3s] at h
        dsimp only at h
        cases h4 : (g :: gs).filter (fun b => b.1 = g.1) with
        | nil => rw [h4] at h; exact Option.noConfusion h
        | cons w ws =>
          rw [h4] at h
          simp only [Option.some.injEq] at h
          subst h
          have hw1 : w ∈ g :: gs := by
            have : w ∈ (g :: gs).filter (fun b => b.1 = g.1) := by
              rw [h4]; exact List.mem_cons_self _ _
            exact (List.mem_filter.mp this).1
          have hw2 : w ∈ (f :: fs).filter (fun b => b.2.2 = f.2.2) := by
            have := h3s ▸ hw1
            exact mem_sortByBool this
          have hw3 : w ∈ f :: fs := (List.mem_filter.mp hw2).1
          have hw4 : w ∈ (e :: es).filter (fun b =>
              b.2.1 = es.foldl (fun acc b => Nat.min acc b.2.1) e.2.1) := by
            have := h2s ▸ hw3
            exact mem_sortByBool this
          exact ⟨w, (List.mem_filter.mp hw4).1, rfl⟩

theorem cmValues_mem {cs : CritterMap} {c : Critter} (h : c ∈ cmValues cs) :
    ∃ p, (p, c) ∈ cs := by
  unfold cmValues at h
  rw [List.mem_map] at h
  obtain ⟨q, hq, rfl⟩ := h
  exact ⟨q.1, hq⟩

/-- One unit's turn (attack, or move and then possibly attack) preserves the
invariants and never increases the unit count or any race count. -/
theorem critterAct_inv {board : Board} {cs : CritterMap} {c : Critter} {fuel : Nat}
    {cs' : CritterMap} (hInv : Inv board cs) (hc : c ∈ cmValues cs)
    (h : critterAct board cs c fuel = some cs') :
    Inv board cs' ∧ cs'.length ≤ cs.length ∧ ∀ r, countRace r cs' ≤ countRace r cs := by
  unfold critterAct at h
  cases hsort : sortByBool (hpLe cs) (adjacent_enemies cs (c.x, c.y) c.race) with
  | cons p rest =>
    simp only [hsort] at h
    exact attackAt_inv hInv h
  | nil =>
    simp only [hsort] at h
    cases hmov : filterMO (can_be_occupied board cs)
        (delta.map (fun d => (c.x + d.1, c.y + d.2))) with
    | none => rw [hmov] at h; exact Option.noConfusion h
    | some moves =>
      simp only [hmov] at h
      cases hbfs : bfsAllMoves board cs c.race (c.x, c.y) moves fuel moves [] with
      | none => rw [hbfs] at h; exact Option.noConfusion h
      | some best =>
        simp only [hbfs] at h
        cases hsel : selectBestMove best with
        | none =>
          simp only [hsel, Option.some.injEq] at h
          subst h
          exact ⟨hInv, le_refl _, fun r => le_refl _⟩
        | some bm =>
          simp only [hsel] at h
          obtain ⟨e, he, he1⟩ := selectBestMove_mem hsel
          have hbm_moves : bm ∈ moves := by
            rcases bfsAllMoves_entries hbfs e he with hin | hm
            · simp at hin
            · exact he1 ▸ hm
          have hocc : can_be_occupied board cs bm = some true :=
            (filterMO_mem hmov bm hbm_moves).1
          obtain ⟨hfloor, hnone⟩ := can_be_occupied_eq_true hocc
          obtain ⟨pold, hpold⟩ := cmValues_mem hc
          have hpm := hInv.2.2 _ hpold
          have hpold_eq : pold = (c.x, c.y) := Prod.ext hpm.1.symm hpm.2.symm
          have hpold' : ((c.x, c.y), c) ∈ cs := hpold_eq ▸ hpold
          have hassign : cmAssign cs bm { c with x := bm.1, y := bm.2 } =
              cs ++ [(bm, { c with x := bm.1, y := bm.2 })] := by
            unfold cmAssign cmContains
            rw [hnone]
            rfl
          have hbm_ne : bm ≠ (c.x, c.y) := by
            intro hcon
            have hsome : (cmFind? cs (c.x, c.y)).isSome := isSome_cmFind?_of_mem hpold'
            rw [← hcon, hnone] at hsome
            simp at hsome
          have hcs2_eq : cmErase (cmAssign cs bm { c with x := bm.1, y := bm.2 }) (c.x, c.y)
              = cmErase cs (c.x, c.y) ++ [(bm, { c with x := bm.1, y := bm.2 })] := by
            rw [hassign]
            unfold cmErase
            rw [List.filter_append]
            congr 1
            simp [hbm_ne]
          have hbm_not_erase : bm ∉ cmKeys (cmErase cs (c.x, c.y)) := by
            intro hmem
            have hsub : List.Sublist (cmKeys (cmErase cs (c.x, c.y))) (cmKeys cs) :=
              (cmErase_sublist cs (c.x, c.y)).map Prod.fst
            exact notMemKeys_of_cmFind?_none hnone (hsub.mem hmem)
          have hInv2 : Inv board
              (cmErase (cmAssign cs bm { c with x := bm.1, y := bm.2 }) (c.x, c.y)) := by
            rw [hcs2_eq]
            refine ⟨?_, ?_, ?_⟩
            · unfold cmKeys
              rw [List.map_append]
              rw [List.nodup_append]
              refine ⟨(Inv_cmErase (c.x, c.y) hInv).1, by simp, ?_⟩
              intro a ha hb
              simp only [List.map_cons, List.map_nil, List.mem_singleton] at hb
              subst hb
              exact hbm_not_erase ha
            · intro q hq
              rcases List.mem_append.mp hq with hq | hq
              · exact (Inv_cmErase (c.x, c.y) hInv).2.1 q hq
              · simp only [List.mem_singleton] at hq
                subst hq
                exact hfloor
            · intro q hq
              rcases List.mem_append.mp hq with hq | hq
              · exact (Inv_cmErase (c.x, c.y) hInv).2.2 q hq
              · simp only [List.mem_singleton] at hq
                subst hq
                exact ⟨rfl, rfl⟩
          have hlen2 : (cmErase (cmAssign cs bm { c with x := bm.1, y := bm.2 })
              (c.x, c.y)).length = cs.length := by
            rw [hcs2_eq, List.length_append]
            rw [length_cmErase_mem hInv.1 hpold']
            simp
          have hcnt2 : ∀ r, countRace r (cmErase (cmAssign cs bm
              { c with x := bm.1, y := bm.2 }) (c.x, c.y)) = countRace r cs := by
            intro r
            rw [hcs2_eq, countRace_append]
            rw [countRace_cmErase_mem (r := r) hInv.1 hpold']
            have hone : countRace r [(bm, ({ c with x := bm.1, y := bm.2 } : Critter))] =
                if c.race = r then 1 else 0 := by
              rw [countRace_cons]
              show (if c.race = r then 1 else 0) + 0 = _
              rw [Nat.add_zero]
            rw [hone]
          split at h
          · simp only [Option.some.injEq] at h
            subst h
            exact ⟨hInv2, le_of_eq hlen2, fun r => le_of_eq (hcnt2 r)⟩
          · obtain ⟨hi, hl, hr⟩ := attackAt_inv hInv2 h
            exact ⟨hi, hl.trans (le_of_eq hlen2), fun r => (hr r).trans (le_of_eq (hcnt2 r))⟩

theorem runTurns_inv {board : Board} {fuel : Nat} :
    ∀ {order : List Nat} {cs cs' : CritterMap} {flag : Bool},
      Inv board cs → runTurns board fuel order cs = some (cs', flag) →
      Inv board cs' ∧ cs'.length ≤ cs.length ∧
        ∀ r, countRace r cs' ≤ countRace r cs := by
  intro order
  induction order with
  | nil =>
    intro cs cs' flag hInv h
    rw [runTurns] at h
    simp only [Option.some.injEq, Prod.mk.injEq] at h
    rw [← h.1]
    exact ⟨hInv, le_refl _, fun r => le_refl _⟩
  | cons cid rest ih =>
    intro cs cs' flag hInv h
    rw [runTurns] at h
    cases hfind : (cmValues cs).find? (fun c => c.id = cid) with
    | none =>
      simp only [hfind] at h
      exact ih hInv h
    | some c =>
      simp only [hfind] at h
      by_cases hemp : ((cmValues cs).filter (fun e => e.race ≠ c.race)).length = 0
      · rw [if_pos hemp] at h
        simp only [Option.some.injEq, Prod.mk.injEq] at h
        rw [← h.1]
        exact ⟨hInv, le_refl _, fun r => le_refl _⟩
      · rw [if_neg hemp] at h
        cases hact : critterAct board cs c fuel with
        | none => rw [hact] at h; exact Option.noConfusion h
        | some cs2 =>
          simp only [hact] at h
          have hcmem : c ∈ cmValues cs := List.mem_of_find?_eq_some hfind
          obtain ⟨hi2, hl2, hr2⟩ := critterAct_inv hInv hcmem hact
          obtain ⟨hi, hl, hr⟩ := ih hi2 h
          exact ⟨hi, hl.trans hl2, fun r => (hr r).trans (hr2 r)⟩

/-- One round preserves the invariants and never increases the unit count or
any race count. -/
theorem playRound_inv {board : Board} {cs cs' : CritterMap} {flag : Bool} {fuel : Nat}
    (hInv : Inv board cs) (h : playRound board cs fuel = some (cs', flag)) :
    Inv board cs' ∧ cs'.length ≤ cs.length ∧
      ∀ r, countRace r cs' ≤ countRace r cs :=
  runTurns_inv hInv h

/-- The whole game loop preserves the invariants and never increases the
unit count or any race count. -/
theorem playLoop_inv {board : Board} :
    ∀ {fuel : Nat} {cs : CritterMap} {rounds r : Nat} {final : CritterMap},
      Inv board cs → playLoop board fuel cs rounds = some (r, final) →
      Inv board final ∧ final.length ≤ cs.length ∧
        ∀ rc, countRace rc final ≤ countRace rc cs := by
  intro fuel
  induction fuel with
  | zero => intro cs rounds r final _ h; exact absurd h (by rw [playLoop]; simp)
  | succ fuel ih =>
    intro cs rounds r final hInv h
    rw [playLoop] at h
    cases hr : playRound board cs fuel with
    | none => rw [hr] at h; exact Option.noConfusion h
    | some st =>
      obtain ⟨cs2, acted⟩ := st
      obtain ⟨hi2, hl2, hc2⟩ := playRound_inv hInv hr
      cases acted with
      | true =>
        simp only [hr, if_pos rfl] at h
        obtain ⟨hi, hl, hc⟩ := ih hi2 h
        exact ⟨hi, hl.trans hl2, fun rc => (hc rc).trans (hc2 rc)⟩
      | false =>
        simp only [hr] at h
        rw [if_neg (by simp)] at h
        simp only [Option.some.injEq, Prod.mk.injEq] at h
        rw [← h.2]
        exact ⟨hi2, hl2, hc2⟩

theorem rowCrittersFrom_bounds {row : Int} :
    ∀ {chars : List Char} {col : Nat} {p : Pos × Race},
      p ∈ rowCrittersFrom row col chars → p.1.1 = row ∧ (col : Int) ≤ p.1.2 := by
  intro chars
  induction chars with
  | nil => intro col p h; simp [rowCrittersFrom] at h
  | cons ch rest ih =>
    intro col p h
    rw [rowCrittersFrom] at h
    cases hr : charRace ch with
    | some r =>
      rw [hr] at h
      rcases List.mem_cons.mp h with h | h
      · subst h
        exact ⟨rfl, le_refl _⟩
      · obtain ⟨h1, h2⟩ := ih h
        refine ⟨h1, le_trans ?_ h2⟩
        exact_mod_cast Nat.le_succ col
    | none =>
      rw [hr] at h
      obtain ⟨h1, h2⟩ := ih h
      refine ⟨h1, le_trans ?_ h2⟩
      exact_mod_cast Nat.le_succ col

theorem rowCrittersFrom_pairwise {row : Int} :
    ∀ (chars : List Char) (col : Nat),
      List.Pairwise (fun a b : Pos × Race => a.1.2 < b.1.2)
        (rowCrittersFrom row col chars) := by
  intro chars
  induction chars with
  | nil => intro col; rw [rowCrittersFrom]; exact List.Pairwise.nil
  | cons ch rest ih =>
    intro col
    rw [rowCrittersFrom]
    cases hr : charRace ch with
    | some r =>
      refine List.Pairwise.cons ?_ (ih (col + 1))
      intro b hb
      have h2 := (rowCrittersFrom_bounds hb).2
      show ((col : Int)) < b.1.2
      have h1 : ((col : Int)) < ((col + 1 : Nat) : Int) := by
        exact_mod_cast Nat.lt_succ_self col
      exact lt_of_lt_of_le h1 h2
    | none => exact ih (col + 1)

theorem placedCritters_row_ge :
    ∀ {ls : List (List Char)} {row : Int} {p : Pos × Race},
      p ∈ placedCritters row ls → row ≤ p.1.1 := by
  intro ls
  induction ls with
  | nil => intro row p h; simp [placedCritters] at h
  | cons chars rest ih =>
    intro row p h
    rw [placedCritters] at h
    rcases List.mem_append.mp h with h | h
    · exact le_of_eq (rowCrittersFrom_bounds h).1.symm
    · have := ih h
      omega

theorem placedCritters_pairwise :
    ∀ (ls : List (List Char)) (row : Int),
      List.Pairwise (fun a b : Pos × Race =>
        a.1.1 < b.1.1 ∨ (a.1.1 = b.1.1 ∧ a.1.2 < b.1.2)) (placedCritters row ls) := by
  intro ls
  induction ls with
  | nil => intro row; rw [placedCritters]; exact List.Pairwise.nil
  | cons chars rest ih =>
    intro row
    rw [placedCritters]
    rw [List.pairwise_append]
    refine ⟨?_, ih (row + 1), ?_⟩
    · have hp := @rowCrittersFrom_pairwise row chars 0
      refine hp.imp_of_mem ?_
      intro a b ha hb hlt
      right
      refine ⟨?_, hlt⟩
      rw [(rowCrittersFrom_bounds ha).1, (rowCrittersFrom_bounds hb).1]
    · intro a ha b hb
      left
      have h1 : a.1.1 = row := (rowCrittersFrom_bounds ha).1
      have h2 : row + 1 ≤ b.1.1 := placedCritters_row_ge hb
      omega

theorem cmKeys_assignIds : ∀ (prs : List (Pos × Race)) (i : Nat),
    cmKeys (assignIds i prs) = prs.map Prod.fst := by
  intro prs
  induction prs with
  | nil => intro i; rfl
  | cons pr rest ih =>
    intro i
    rw [assignIds]
    unfold cmKeys at ih ⊢
    rw [List.map_cons, List.map_cons, ih]

theorem charTerrain_of_charRace {ch : Char} {r : Race} (h : charRace ch = some r) :
    charTerrain ch = Terrain.FLOOR := by
  unfold charRace at h
  by_cases hE : ch = 'E'
  · unfold charTerrain
    rw [if_pos (Or.inr (Or.inl hE))]
  · rw [if_neg hE] at h
    by_cases hG : ch = 'G'
    · unfold charTerrain
      rw [if_pos (Or.inr (Or.inr hG))]
    · rw [if_neg hG] at h
      exact Option.noConfusion h

/-- Parsing establishes the invariants: distinct keys in reading order,
floor terrain under every unit, and coordinates matching the key. -/
theorem gameInit_inv (data : String) :
    Inv (gameInit data).board (gameInit data).critters := by
  refine ⟨?_, ?_, ?_⟩
  · show (cmKeys (assignIds 0 (placedCritters 0 (splitLines data)))).Nodup
    rw [cmKeys_assignIds]
    have hp := placedCritters_pairwise (splitLines data) 0
    have := hp.map (f := Prod.fst)
      (S := fun a b : Pos => a ≠ b) ?_
    · exact this
    · intro a b h hcon
      rcases h with h | h
      · rw [hcon] at h
        exact lt_irrefl _ h
      · rw [hcon] at h
        exact lt_irrefl _ h.2
  · intro q hq
    obtain ⟨pr, hpr, hkey, -, -, -, -, -⟩ := mem_assignIds hq
    obtain ⟨k, chars, hls, hrow⟩ := mem_placedCritters _ _ hpr
    obtain ⟨j, ch, hj, hcr, hpos⟩ := mem_rowCrittersFrom chars 0 hrow
    have hq1 : q.1 = ((k : Int), (j : Int)) := by
      rw [hkey, hpos]
      simp
    rw [hq1]
    refine ⟨Int.natCast_nonneg _, Int.natCast_nonneg _, ?_⟩
    show (((splitLines data).map (fun chars => chars.map charTerrain))[((k : Int)).toNat]?.bind
      (fun row => row[((j : Int)).toNat]?)) = some Terrain.FLOOR
    rw [Int.toNat_natCast, Int.toNat_natCast]
    rw [List.getElem?_map, hls]
    simp only [Option.map_some', Option.some_bind]
    rw [List.getElem?_map, hj]
    simp only [Option.map_some', Option.some.injEq]
    exact charTerrain_of_charRace hcr
  · intro q hq
    obtain ⟨pr, hpr, hkey, -, hx, hy, -, -⟩ := mem_assignIds hq
    constructor
    · rw [hx, hkey]
    · rw [hy, hkey]

/-- C5.  The occupancy invariants — at most one unit per position (distinct
keys), every occupied position is floor terrain, and each unit's recorded
coordinates equal its key — hold for the parsed initial state, and are
preserved by the attack/death-removal operation (`attackAt`), by a unit's
whole turn including its move (`critterAct`), and by the full game loop. -/
theorem C5_invariants (board : Board) (fuel : Nat) :
    (∀ (data : String), Inv (gameInit data).board (gameInit data).critters) ∧
    (∀ (cs cs' : CritterMap) (atk : Critter) (p : Pos),
      Inv board cs → attackAt cs atk p = some cs' → Inv board cs') ∧
    (∀ (cs cs' : CritterMap) (c : Critter),
      Inv board cs → c ∈ cmValues cs → critterAct board cs c fuel = some cs' →
        Inv board cs') ∧
    (∀ (cs final : CritterMap) (rounds r : Nat),
      Inv board cs → playLoop board fuel cs rounds = some (r, final) → Inv board final) :=
  ⟨gameInit_inv,
   fun _ _ _ _ hInv h => (attackAt_inv hInv h).1,
   fun _ _ _ hInv hc h => (critterAct_inv hInv hc h).1,
   fun _ _ _ _ hInv h => (playLoop_inv hInv h).1⟩

/-- C5 exercised on the concrete fixture: the parsed game, an attack, a full
turn and a full loop all yield states satisfying the invariants. -/
theorem C5_invariants_witness :
    Inv (gameInit "?EG?").board (gameInit "?EG?").critters ∧
    Inv exBoard4 exCs1 ∧ Inv exBoard4 exCs1 ∧ Inv exBoard4 exCs1 :=
  ⟨(C5_invariants exBoard4 2).1 "?EG?",
   (C5_invariants exBoard4 2).2.1 exCs exCs1 elf0 ((1 : Int), (2 : Int))
     (by decide) (by decide),
   (C5_invariants exBoard4 2).2.2.1 exCs exCs1 elf0 (by decide) (by decide) (by decide),
   (C5_invariants exBoard4 2).2.2.2 exCs exCs1 0 1 (by decide) (by decide)⟩

/-- C9.  Units are only ever removed, never added: each round maps a state
satisfying the invariants to a state with at most as many living units, and
the whole loop never increases the unit count. -/
theorem C9_units_nonincreasing (board : Board) (fuel : Nat) :
    (∀ (cs cs' : CritterMap) (flag : Bool),
      Inv board cs → playRound board cs fuel = some (cs', flag) →
        cs'.length ≤ cs.length) ∧
    (∀ (cs final : CritterMap) (rounds r : Nat),
      Inv board cs → playLoop board fuel cs rounds = some (r, final) →
        final.length ≤ cs.length) :=
  ⟨fun _ _ _ hInv h => (playRound_inv hInv h).2.1,
   fun _ _ _ _ hInv h => (playLoop_inv hInv h).2.1⟩

/-- C9 exercised on the concrete fixture: the first round reduces the unit
count from 2 to 1. -/
theorem C9_units_nonincreasing_witness :
    exCs1.length ≤ exCs.length ∧ exCs1.length ≤ exCs.length :=
  ⟨(C9_units_nonincreasing exBoard4 0).1 exCs exCs1 true (by decide) (by decide),
   (C9_units_nonincreasing exBoard4 2).2 exCs exCs1 0 1 (by decide) (by decide)⟩

/-! ### C6: elf-power calibration -/

theorem cmKeys_setElfPower (p : Int) (cs : CritterMap) :
    cmKeys (setElfPower p cs) = cmKeys cs := by
  unfold cmKeys setElfPower
  rw [List.map_map]
  apply List.map_congr_left
  intro q _
  by_cases hq : q.2.race = Race.ELF
  · simp [hq]
  · simp [hq]

theorem mem_setElfPower {p : Int} {cs : CritterMap} {q : Pos × Critter}
    (h : q ∈ setElfPower p cs) :
    ∃ q0 ∈ cs, q.1 = q0.1 ∧ q.2.race = q0.2.race ∧ q.2.x = q0.2.x ∧ q.2.y = q0.2.y := by
  unfold setElfPower at h
  rw [List.mem_map] at h
  obtain ⟨q0, hq0, rfl⟩ := h
  by_cases hq : q0.2.race = Race.ELF
  · rw [if_pos hq]
    exact ⟨q0, hq0, rfl, rfl, rfl, rfl⟩
  · rw [if_neg hq]
    exact ⟨q0, hq0, rfl, rfl, rfl, rfl⟩

theorem Inv_setElfPower {board : Board} {cs : CritterMap} (p : Int) (h : Inv board cs) :
    Inv board (setElfPower p cs) := by
  refine ⟨?_, ?_, ?_⟩
  · rw [cmKeys_setElfPower]
    exact h.1
  · intro q hq
    obtain ⟨q0, hq0, hkey, -, -, -⟩ := mem_setElfPower hq
    rw [hkey]
    exact h.2.1 q0 hq0
  · intro q hq
    obtain ⟨q0, hq0, hkey, -, hx, hy⟩ := mem_setElfPower hq
    rw [hkey, hx, hy]
    exact h.2.2 q0 hq0

theorem countRace_setElfPower (r : Race) (p : Int) (cs : CritterMap) :
    countRace r (setElfPower p cs) = countRace r cs := by
  induction cs with
  | nil => rfl
  | cons q rest ih =>
    show countRace r ((if q.2.race = Race.ELF then
        (q.1, { q.2 with attack_power := p }) else q) :: setElfPower p rest) = _
    rw [countRace_cons, countRace_cons, ih]
    by_cases hq : q.2.race = Race.ELF
    · rw [if_pos hq]
    · rw [if_neg hq]

/-- Goblins are untouched by the elf power boost. -/
theorem goblin_mem_setElfPower {cs : CritterMap} {q : Pos × Critter} (p : Int)
    (hq : q ∈ cs) (hrace : q.2.race = Race.GOBLIN) : q ∈ setElfPower p cs := by
  unfold setElfPower
  have : (if q.2.race = Race.ELF then (q.1, { q.2 with attack_power := p }) else q) = q := by
    rw [if_neg (by rw [hrace]; exact fun hcon => Race.noConfusion hcon)]
  rw [← this]
  exact List.mem_map_of_mem _ hq

/-- A terminating `play` run from a state satisfying the invariants cannot
report more surviving elves than it started with. -/
theorem playFrom_pop_le {g : Game} {cs : CritterMap} {fuel : Nat} {s : Int} {pop : Nat}
    (hInv : Inv g.board cs) (h : playFrom g cs fuel = some (s, pop)) :
    pop ≤ countRace Race.ELF cs := by
  unfold playFrom at h
  cases hl : playLoop g.board fuel cs 0 with
  | none => rw [hl] at h; exact Option.noConfusion h
  | some rf =>
    obtain ⟨rounds, final⟩ := rf
    rw [hl] at h
    simp only [Option.some.injEq, Prod.mk.injEq] at h
    rw [← h.2]
    exact (playLoop_inv hInv hl).2.2 Race.ELF

theorem calibrateLoop_spec {g : Game} {numElves : Nat} {fuel : Nat} :
    ∀ {iters : Nat} {power score : Int},
      calibrateLoop g numElves fuel iters power = some score →
      ∃ p : Int, power < p ∧
        playFrom g (setElfPower p g.critters) fuel = some (score, numElves) ∧
        ∀ q : Int, power < q → q < p →
          ∃ s' pop, playFrom g (setElfPower q g.critters) fuel = some (s', pop) ∧
            pop ≠ numElves := by
  intro iters
  induction iters with
  | zero => intro power score h; exact absurd h (by rw [calibrateLoop]; simp)
  | succ iters ih =>
    intro power score h
    rw [calibrateLoop] at h
    cases hp : playFrom g (setElfPower (power + 1) g.critters) fuel with
    | none => rw [hp] at h; exact Option.noConfusion h
    | some sp =>
      obtain ⟨s1, pop1⟩ := sp
      simp only [hp] at h
      by_cases hpop : pop1 = numElves
      · rw [if_pos hpop] at h
        simp only [Option.some.injEq] at h
        refine ⟨power + 1, lt_add_one power, ?_, ?_⟩
        · rw [hp, h, hpop]
        · intro q hq1 hq2
          omega
      · rw [if_neg hpop] at h
        obtain ⟨p, hp1, hp2, hp3⟩ := ih h
        refine ⟨p, by omega, hp2, ?_⟩
        intro q hq1 hq2
        by_cases hq : q = power + 1
        · subst hq
          exact ⟨s1, pop1, hp, hpop⟩
        · exact hp3 q (by omega) hq2

/-- C6.  When `determine_elf_strength` returns, there is a power `p ≥ 4`
(one above the default or more) such that the run with all elves boosted to
`p` returns exactly the reported score with every original elf surviving;
every lower power `q` with `4 ≤ q < p` was tried and lost at least one elf;
and the boost never touches a goblin. -/
theorem C6_calibration (g : Game) (fuel iters : Nat) (score : Int)
    (hInv : Inv g.board g.critters)
    (h : determine_elf_strength g fuel iters = some score) :
    ∃ p : Int, 4 ≤ p ∧
      playFrom g (setElfPower p g.critters) fuel =
        some (score, countRace Race.ELF g.critters) ∧
      (∀ q : Int, 4 ≤ q → q < p →
        ∃ s' pop, playFrom g (setElfPower q g.critters) fuel = some (s', pop) ∧
          pop < countRace Race.ELF g.critters) ∧
      (∀ (pw : Int), ∀ pr ∈ g.critters, pr.2.race = Race.GOBLIN →
        pr ∈ setElfPower pw g.critters) := by
  unfold determine_elf_strength at h
  obtain ⟨p, hp1, hp2, hp3⟩ := calibrateLoop_spec h
  refine ⟨p, by omega, hp2, ?_, ?_⟩
  · intro q hq1 hq2
    obtain ⟨s', pop, hplay, hne⟩ := hp3 q (by omega) hq2
    refine ⟨s', pop, hplay, ?_⟩
    have hle : pop ≤ countRace Race.ELF (setElfPower q g.critters) :=
      playFrom_pop_le (Inv_setElfPower q hInv) hplay
    rw [countRace_setElfPower] at hle
    omega
  · intro pw pr hpr hrace
    exact goblin_mem_setElfPower pw hpr hrace

/-- C6 exercised on the concrete fixture: calibration on the two-critter
game returns at the first tried power 4 with the lone elf surviving. -/
theorem C6_calibration_witness :
    ∃ p : Int, 4 ≤ p ∧
      playFrom exGame4 (setElfPower p exGame4.critters) 2 =
        some (3, countRace Race.ELF exGame4.critters) ∧
      (∀ q : Int, 4 ≤ q → q < p →
        ∃ s' pop, playFrom exGame4 (setElfPower q exGame4.critters) 2 = some (s', pop) ∧
          pop < countRace Race.ELF exGame4.critters) ∧
      (∀ (pw : Int), ∀ pr ∈ exGame4.critters, pr.2.race = Race.GOBLIN →
        pr ∈ setElfPower pw exGame4.critters) :=
  C6_calibration exGame4 2 1 3 (by decide) (by decide)

/-! ### C4: the movement search

Specification-side notions, following the specification's words: a walk over
floor tiles not occupied by a living unit (here: tiles whose occupancy check
succeeds), moving one 4-neighbour step at a time.  `RWalkTo avoid origin n m t`
says there is such a walk of `n` steps leaving `origin`, whose first tile is
`m` and last tile is `t`, with every tile after the first outside `avoid`
(used with `avoid = []` for the specification's plain walks, and with
`avoid = moves ++ [origin]` for the walks the source's per-first-step search
actually explores). -/

/-- One 4-neighbour step (`Game.delta`). -/
def Adj (p q : Pos) : Prop :=
  ∃ d ∈ delta, q = (p.1 + d.1, p.2 + d.2)

/-- `WalkFrom avoid prev w`: the tiles of `w`, in order, continue a walk
standing at `prev`: each is one step from its predecessor, each passes the
occupancy check, and each avoids `avoid`. -/
def WalkFrom (board : Board) (cs : CritterMap) (avoid : List Pos) :
    Pos → List Pos → Prop
  | _, [] => True
  | prev, t :: rest => Adj prev t ∧ can_be_occupied board cs t = some true ∧
      t ∉ avoid ∧ WalkFrom board cs avoid t rest

/-- The last tile of a walk continuation, or the standing tile when empty. -/
def lastOf (prev : Pos) (w : List Pos) : Pos :=
  w.getLastD prev

/-- A walk of `n` steps out of `origin`: first tile `m` (adjacent to the
origin and occupiable, exempt from `avoid`), last tile `t`. -/
def RWalkTo (board : Board) (cs : CritterMap) (avoid : List Pos) (origin : Pos)
    (n : Nat) (m t : Pos) : Prop :=
  ∃ rest : List Pos, Adj origin m ∧ can_be_occupied board cs m = some true ∧
    WalkFrom board cs avoid m rest ∧ rest.length + 1 = n ∧ lastOf m rest = t

theorem lastOf_nil (prev : Pos) : lastOf prev [] = prev := rfl

theorem lastOf_append_singleton (prev : Pos) (w : List Pos) (s : Pos) :
    lastOf prev (w ++ [s]) = s := by
  unfold lastOf
  rw [List.getLastD_concat]

theorem lastOf_cons (prev x : Pos) (w : List Pos) :
    lastOf prev (x :: w) = lastOf x w := by
  unfold lastOf
  exact List.getLastD_cons prev x w

theorem WalkFrom_append_singleton {board : Board} {cs : CritterMap}
    {avoid : List Pos} {s : Pos} :
    ∀ {w : List Pos} {prev : Pos}, WalkFrom board cs avoid prev w →
      Adj (lastOf prev w) s → can_be_occupied board cs s = some true →
      s ∉ avoid → WalkFrom board cs avoid prev (w ++ [s]) := by
  intro w
  induction w with
  | nil =>
    intro prev _ hadj hfree hs
    exact ⟨hadj, hfree, hs, trivial⟩
  | cons x rest ih =>
    intro prev hw hadj hfree hs
    obtain ⟨h1, h2, h3, h4⟩ := hw
    rw [lastOf_cons] at hadj
    exact ⟨h1, h2, h3, ih h4 hadj hfree hs⟩

theorem WalkFrom_unappend_singleton {board : Board} {cs : CritterMap}
    {avoid : List Pos} {s : Pos} :
    ∀ {w : List Pos} {prev : Pos}, WalkFrom board cs avoid prev (w ++ [s]) →
      WalkFrom board cs avoid prev w ∧ Adj (lastOf prev w) s ∧
      can_be_occupied board cs s = some true ∧ s ∉ avoid := by
  intro w
  induction w with
  | nil =>
    intro prev hw
    obtain ⟨h1, h2, h3, -⟩ := hw
    exact ⟨trivial, by rw [lastOf_nil]; exact h1, h2, h3⟩
  | cons x rest ih =>
    intro prev hw
    obtain ⟨h1, h2, h3, h4⟩ := hw
    obtain ⟨g1, g2, g3, g4⟩ := ih h4
    exact ⟨⟨h1, h2, h3, g1⟩, by rw [lastOf_cons]; exact g2, g3, g4⟩

theorem WalkFrom_suffix {board : Board} {cs : CritterMap} {avoid : List Pos}
    {x : Pos} {w2 : List Pos} :
    ∀ {w1 : List Pos} {prev : Pos}, WalkFrom board cs avoid prev (w1 ++ x :: w2) →
      WalkFrom board cs avoid x w2 ∧ can_be_occupied board cs x = some true ∧
      x ∉ avoid := by
  intro w1
  induction w1 with
  | nil =>
    intro prev hw
    obtain ⟨-, h2, h3, h4⟩ := hw
    exact ⟨h4, h2, h3⟩
  | cons y rest ih =>
    intro prev hw
    obtain ⟨-, -, -, h4⟩ := hw
    exact ih h4

theorem WalkFrom_mono_avoid {board : Board} {cs : CritterMap}
    {avoid avoid' : List Pos} (hsub : ∀ a ∈ avoid', a ∈ avoid) :
    ∀ {w : List Pos} {prev : Pos}, WalkFrom board cs avoid prev w →
      WalkFrom board cs avoid' prev w := by
  intro w
  induction w with
  | nil => intro prev _; trivial
  | cons x rest ih =>
    intro prev hw
    obtain ⟨h1, h2, h3, h4⟩ := hw
    exact ⟨h1, h2, fun hc => h3 (hsub x hc), ih h4⟩

theorem WalkFrom_strengthen {board : Board} {cs : CritterMap} {avoid : List Pos} :
    ∀ {w : List Pos} {prev : Pos}, WalkFrom board cs [] prev w →
      (∀ a ∈ w, a ∉ avoid) → WalkFrom board cs avoid prev w := by
  intro w
  induction w with
  | nil => intro prev _ _; trivial
  | cons x rest ih =>
    intro prev hw hout
    obtain ⟨h1, h2, -, h4⟩ := hw
    exact ⟨h1, h2, hout x (List.mem_cons_self _ _),
      ih h4 (fun a ha => hout a (List.mem_cons_of_mem _ ha))⟩

/-- Extending a walk by one step. -/
theorem RWalkTo_extend {board : Board} {cs : CritterMap} {avoid : List Pos}
    {origin : Pos} {n : Nat} {m t s : Pos}
    (hw : RWalkTo board cs avoid origin n m t) (hadj : Adj t s)
    (hfree : can_be_occupied board cs s = some true) (hs : s ∉ avoid) :
    RWalkTo board cs avoid origin (n + 1) m s := by
  obtain ⟨rest, h1, h2, h3, h4, h5⟩ := hw
  refine ⟨rest ++ [s], h1, h2, ?_, by simp [← h4], by rw [lastOf_append_singleton]⟩
  exact WalkFrom_append_singleton h3 (h5 ▸ hadj) hfree hs

/-- A walk of length 1 ends where it starts. -/
theorem RWalkTo_one {board : Board} {cs : CritterMap} {avoid : List Pos}
    {origin : Pos} {m t : Pos} (hw : RWalkTo board cs avoid origin 1 m t) :
    t = m ∧ Adj origin m ∧ can_be_occupied board cs m = some true := by
  obtain ⟨rest, h1, h2, h3, h4, h5⟩ := hw
  have : rest = [] := by
    cases rest with
    | nil => rfl
    | cons x xs => simp at h4
  subst this
  exact ⟨h5.symm, h1, h2⟩

/-- Peeling the last step off a walk of length at least 2. -/
theorem RWalkTo_peel {board : Board} {cs : CritterMap} {avoid : List Pos}
    {origin : Pos} {n : Nat} {m t : Pos}
    (hw : RWalkTo board cs avoid origin (n + 2) m t) :
    ∃ u, RWalkTo board cs avoid origin (n + 1) m u ∧ Adj u t ∧
      can_be_occupied board cs t = some true ∧ t ∉ avoid := by
  obtain ⟨rest, h1, h2, h3, h4, h5⟩ := hw
  have hne : rest ≠ [] := by
    intro hcon
    subst hcon
    simp at h4
  obtain ⟨w, s, hws⟩ := List.eq_nil_or_concat rest |>.resolve_left hne
  rw [List.concat_eq_append] at hws
  subst hws
  obtain ⟨g1, g2, g3, g4⟩ := WalkFrom_unappend_singleton h3
  rw [lastOf_append_singleton] at h5
  subst h5
  refine ⟨lastOf m w, ⟨w, h1, h2, g1, ?_, rfl⟩, g2, g3, g4⟩
  have : w.length + 1 + 1 = n + 2 := by simpa using h4
  omega

/-- The first tile of a walk of length 1 out of the origin. -/
theorem RWalkTo_self {board : Board} {cs : CritterMap} {avoid : List Pos}
    {origin : Pos} {m : Pos} (h1 : Adj origin m)
    (h2 : can_be_occupied board cs m = some true) :
    RWalkTo board cs avoid origin 1 m m :=
  ⟨[], h1, h2, trivial, rfl, rfl⟩

theorem adj_iff_mem_nbrs {p q : Pos} :
    Adj p q ↔ q ∈ delta.map (fun d => (p.1 + d.1, p.2 + d.2)) := by
  unfold Adj
  rw [List.mem_map]
  constructor
  · rintro ⟨d, hd, rfl⟩
    exact ⟨d, hd, rfl⟩
  · rintro ⟨d, hd, rfl⟩
    exact ⟨d, hd, rfl⟩

theorem filterMO_complete {A : Type} {p : A → Option Bool} :
    ∀ {xs ys : List A}, filterMO p xs = some ys →
      ∀ x ∈ xs, p x = some true → x ∈ ys := by
  intro xs
  induction xs with
  | nil => intro ys _ x hx; simp at hx
  | cons a rest ih =>
    intro ys h x hx hpx
    rw [filterMO] at h
    cases hpa : p a with
    | none => rw [hpa] at h; exact Option.noConfusion h
    | some b =>
      rw [hpa] at h
      cases hrest : filterMO p rest with
      | none => rw [hrest] at h; exact Option.noConfusion h
      | some kept =>
        rw [hrest] at h
        simp only [Option.some.injEq] at h
        subst h
        rcases List.mem_cons.mp hx with hx | hx
        · subst hx
          rw [hpx] at hpa
          have hb : b = true := by simpa using hpa.symm
          subst hb
          exact List.mem_cons_self _ _
        · have := ih hrest x hx hpx
          cases b with
          | true => exact List.mem_cons_of_mem _ this
          | false => exact this

theorem filterMO_sublist {A : Type} {p : A → Option Bool} :
    ∀ {xs ys : List A}, filterMO p xs = some ys → List.Sublist ys xs := by
  intro xs
  induction xs with
  | nil =>
    intro ys h
    rw [filterMO] at h
    simp only [Option.some.injEq] at h
    subst h
    exact List.Sublist.refl _
  | cons a rest ih =>
    intro ys h
    rw [filterMO] at h
    cases hpa : p a with
    | none => rw [hpa] at h; exact Option.noConfusion h
    | some b =>
      rw [hpa] at h
      cases hrest : filterMO p rest with
      | none => rw [hrest] at h; exact Option.noConfusion h
      | some kept =>
        rw [hrest] at h
        simp only [Option.some.injEq] at h
        subst h
        cases b with
        | true => exact (ih hrest).cons₂ a
        | false => exact (ih hrest).cons a

theorem mem_dedupKeepFirst {x : Pos} {xs : List Pos} :
    x ∈ dedupKeepFirst xs ↔ x ∈ xs := by
  unfold dedupKeepFirst
  suffices haux : ∀ (l : List Pos) (acc : List Pos),
      x ∈ l.foldl (fun acc p => if p ∈ acc then acc else acc ++ [p]) acc ↔
        x ∈ acc ∨ x ∈ l by
    rw [haux]
    simp
  intro l
  induction l with
  | nil => intro acc; simp
  | cons a rest ih =>
    intro acc
    rw [List.foldl_cons]
    by_cases ha : a ∈ acc
    · rw [if_pos ha, ih]
      constructor
      · rintro (h | h)
        · exact Or.inl h
        · exact Or.inr (List.mem_cons_of_mem _ h)
      · rintro (h | h)
        · exact Or.inl h
        · rcases List.mem_cons.mp h with h | h
          · exact Or.inl (h ▸ ha)
          · exact Or.inr h
    · rw [if_neg ha, ih]
      constructor
      · rintro (h | h)
        · rcases List.mem_append.mp h with h | h
          · exact Or.inl h
          · simp only [List.mem_singleton] at h
            exact Or.inr (h ▸ List.mem_cons_self _ _)
        · exact Or.inr (List.mem_cons_of_mem _ h)
      · rintro (h | h)
        · exact Or.inl (List.mem_append.mpr (Or.inl h))
        · rcases List.mem_cons.mp h with h | h
          · exact Or.inl (List.mem_append.mpr (Or.inr (by simp [h])))
          · exact Or.inr h

theorem nodup_dedupKeepFirst (xs : List Pos) : (dedupKeepFirst xs).Nodup := by
  unfold dedupKeepFirst
  suffices haux : ∀ (l : List Pos) (acc : List Pos), acc.Nodup →
      (l.foldl (fun acc p => if p ∈ acc then acc else acc ++ [p]) acc).Nodup by
    exact haux xs [] List.nodup_nil
  intro l
  induction l with
  | nil => intro acc h; exact h
  | cons a rest ih =>
    intro acc h
    rw [List.foldl_cons]
    by_cases ha : a ∈ acc
    · rw [if_pos ha]
      exact ih acc h
    · rw [if_neg ha]
      refine ih _ ?_
      rw [List.nodup_append]
      refine ⟨h, List.nodup_singleton a, ?_⟩
      intro x hx hxa
      simp only [List.mem_singleton] at hxa
      subst hxa
      exact ha hx

theorem processTiles_cont_false {board : Board} {cs : CritterMap} {race : Race}
    {m : Pos} {dist : Nat} :
    ∀ {stack covered best newStack out},
      processTiles board cs race m dist stack covered best newStack false = some out →
      out.2.2.2 = false := by
  intro stack
  induction stack with
  | nil =>
    intro covered best newStack out h
    rw [processTiles] at h
    simp only [Option.some.injEq] at h
    rw [← h]
  | cons t rest ih =>
    intro covered best newStack out h
    rw [processTiles] at h
    by_cases hc : t ∈ covered
    · rw [if_pos hc] at h
      exact ih h
    rw [if_neg hc] at h
    by_cases hadj : (adjacent_enemies cs t race).length ≠ 0
    · rw [if_pos hadj] at h
      exact ih h
    · rw [if_neg hadj] at h
      dsimp only at h
      cases hf : filterMO
          (fun s => if s ∈ covered ++ [t] then some false else can_be_occupied board cs s)
          (delta.map (fun d => (t.1 + d.1, t.2 + d.2))) with
      | none => rw [hf] at h; exact Option.noConfusion h
      | some adds =>
        rw [hf] at h
        exact ih h

/-- The full behaviour of one BFS level (`for tile in stack:`), relative to
the walks `RWalkTo board cs A origin · m ·` the search explores: covered
grows by exactly the stack; recorded candidates are sound (destination tiles
with an exact-length walk); pushed tiles carry a one-longer walk; every
uncovered enemy-adjacent stack tile is recorded; every free neighbour of an
uncovered quiet stack tile ends up pushed or covered; and a surviving `cont`
means no destination was processed. -/
theorem processTiles_spec {board : Board} {cs : CritterMap} {race : Race}
    {m : Pos} {A : List Pos} {origin : Pos} {k : Nat} :
    ∀ {stack covered : List Pos} {best : List Entry} {newStack : List Pos}
      {cont : Bool} {covered' : List Pos} {best' : List Entry}
      {newStack' : List Pos} {cont' : Bool},
      processTiles board cs race m (k + 1) stack covered best newStack cont
        = some (covered', best', newStack', cont') →
      stack.Nodup →
      (∀ s ∈ stack, RWalkTo board cs A origin (k + 1) m s) →
      (∀ a ∈ A, a ∈ covered) →
      (((∀ t ∈ covered, t ∈ covered') ∧ (∀ t ∈ covered', t ∈ covered ∨ t ∈ stack) ∧
        (∀ t ∈ stack, t ∈ covered')) ∧
       ((∀ e ∈ best, e ∈ best') ∧
        (∀ e ∈ best', e ∈ best ∨ (e.1 = m ∧ e.2.1 = k + 1 ∧
           adjacent_enemies cs e.2.2 race ≠ [] ∧
           RWalkTo board cs A origin (k + 1) m e.2.2))) ∧
       ((∀ s ∈ newStack, s ∈ newStack') ∧
        (∀ s ∈ newStack', s ∈ newStack ∨ RWalkTo board cs A origin (k + 2) m s)) ∧
       (∀ t ∈ stack, t ∉ covered → adjacent_enemies cs t race ≠ [] →
         (m, k + 1, t) ∈ best') ∧
       (∀ t ∈ stack, t ∉ covered → adjacent_enemies cs t race = [] →
         ∀ s, Adj t s → can_be_occupied board cs s = some true →
           s ∈ newStack' ∨ s ∈ covered') ∧
       (cont' = true → cont = true ∧
         ∀ t ∈ stack, t ∉ covered → adjacent_enemies cs t race = []) ∧
       (cont = true → cont' = false →
         ∃ t ∈ stack, t ∉ covered ∧ adjacent_enemies cs t race ≠ [])) := by
  intro stack
  induction stack with
  | nil =>
    intro covered best newStack cont covered' best' newStack' cont' h _ _ _
    rw [processTiles] at h
    simp only [Option.some.injEq, Prod.mk.injEq] at h
    obtain ⟨hc, hb, hn, hco⟩ := h
    subst hc hb hn hco
    refine ⟨⟨fun t ht => ht, fun t ht => Or.inl ht, fun t ht => by simp at ht⟩,
      ⟨fun e he => he, fun e he => Or.inl he⟩,
      ⟨fun s hs => hs, fun s hs => Or.inl hs⟩,
      fun t ht => by simp at ht,
      fun t ht => by simp at ht,
      fun hct => ⟨hct, fun t ht => by simp at ht⟩,
      fun hct hcf => absurd (hct.symm.trans hcf) (by simp)⟩
  | cons t rest ih =>
    intro covered best newStack cont covered' best' newStack' cont' h hnd hS1 hA
    have hndr : rest.Nodup := hnd.of_cons
    have htr : t ∉ rest := by
      rw [List.nodup_cons] at hnd
      exact hnd.1
    have hS1r : ∀ s ∈ rest, RWalkTo board cs A origin (k + 1) m s :=
      fun s hs => hS1 s (List.mem_cons_of_mem _ hs)
    rw [processTiles] at h
    by_cases hc : t ∈ covered
    · rw [if_pos hc] at h
      obtain ⟨⟨a1, a2, a3⟩, ⟨b1, b2⟩, ⟨c1, c2⟩, d, e, f, g⟩ := ih h hndr hS1r hA
      refine ⟨⟨a1, fun x hx => ?_, fun x hx => ?_⟩, ⟨b1, b2⟩, ⟨c1, c2⟩,
        fun x hx hxc hxe => ?_, fun x hx hxc hxe => ?_, fun hct => ?_,
        fun hct hcf => ?_⟩
      · rcases a2 x hx with hx | hx
        · exact Or.inl hx
        · exact Or.inr (List.mem_cons_of_mem _ hx)
      · rcases List.mem_cons.mp hx with hx | hx
        · exact a1 x (hx ▸ hc)
        · exact a3 x hx
      · rcases List.mem_cons.mp hx with hx | hx
        · exact absurd (hx ▸ hc) hxc
        · exact d x hx hxc hxe
      · rcases List.mem_cons.mp hx with hx | hx
        · exact absurd (hx ▸ hc) hxc
        · exact e x hx hxc hxe
      · obtain ⟨hct2, hprop⟩ := f hct
        refine ⟨hct2, fun x hx hxc => ?_⟩
        rcases List.mem_cons.mp hx with hx | hx
        · exact absurd (hx ▸ hc) hxc
        · exact hprop x hx hxc
      · obtain ⟨x, hx, hxc, hxe⟩ := g hct hcf
        exact ⟨x, List.mem_cons_of_mem _ hx, hxc, hxe⟩
    · rw [if_neg hc] at h
      have hcov2sub : ∀ x ∈ covered, x ∈ covered ++ [t] :=
        fun x hx => List.mem_append.mpr (Or.inl hx)
      have htcov2 : t ∈ covered ++ [t] := List.mem_append.mpr (Or.inr (by simp))
      have hA2 : ∀ a ∈ A, a ∈ covered ++ [t] := fun a ha => hcov2sub a (hA a ha)
      have hnotc2 : ∀ x ∈ rest, x ∉ covered → x ∉ covered ++ [t] := by
        intro x hx hxc hcon
        rcases List.mem_append.mp hcon with hcon | hcon
        · exact hxc hcon
        · simp only [List.mem_singleton] at hcon
          exact htr (hcon ▸ hx)
      by_cases hadj : (adjacent_enemies cs t race).length ≠ 0
      · rw [if_pos hadj] at h
        obtain ⟨⟨a1, a2, a3⟩, ⟨b1, b2⟩, ⟨c1, c2⟩, d, e, f, g⟩ := ih h hndr hS1r hA2
        have hbest2 : (m, k + 1, t) ∈ best' :=
          b1 _ (List.mem_append.mpr (Or.inr (by simp)))
        have hadj' : adjacent_enemies cs t race ≠ [] := by
          intro hcon
          rw [hcon] at hadj
          simp at hadj
        refine ⟨⟨fun x hx => a1 x (hcov2sub x hx), fun x hx => ?_,
          fun x hx => ?_⟩,
          ⟨fun e2 he2 => b1 e2 (List.mem_append.mpr (Or.inl he2)), fun e2 he2 => ?_⟩,
          ⟨c1, c2⟩, fun x hx hxc hxe => ?_, fun x hx hxc hxe => ?_, fun hct => ?_,
          fun hct hcf => ⟨t, List.mem_cons_self _ _, hc, hadj'⟩⟩
        · rcases a2 x hx with hx | hx
          · rcases List.mem_append.mp hx with hx | hx
            · exact Or.inl hx
            · simp only [List.mem_singleton] at hx
              exact Or.inr (hx ▸ List.mem_cons_self _ _)
          · exact Or.inr (List.mem_cons_of_mem _ hx)
        · rcases List.mem_cons.mp hx with hx | hx
          · exact a1 x (hx ▸ htcov2)
          · exact a3 x hx
        · rcases b2 e2 he2 with he2 | he2
          · rcases List.mem_append.mp he2 with he2 | he2
            · exact Or.inl he2
            · simp only [List.mem_singleton] at he2
              subst he2
              exact Or.inr ⟨rfl, rfl, hadj', hS1 t (List.mem_cons_self _ _)⟩
          · exact Or.inr he2
        · rcases List.mem_cons.mp hx with hx | hx
          · exact hx ▸ hbest2
          · exact d x hx (hnotc2 x hx hxc) hxe
        · rcases List.mem_cons.mp hx with hx | hx
          · exact absurd (hx ▸ hadj') (by rw [hxe]; simp)
          · exact e x hx (hnotc2 x hx hxc) hxe
        · obtain ⟨hct2, -⟩ := f hct
          exact absurd hct2 (by simp)
      · rw [if_neg hadj] at h
        dsimp only at h
        have hadjeq : adjacent_enemies cs t race = [] := by
          rw [Decidable.not_not] at hadj
          exact List.length_eq_zero.mp hadj
        cases hf : filterMO
            (fun s => if s ∈ covered ++ [t] then some false else can_be_occupied board cs s)
            (delta.map (fun d => (t.1 + d.1, t.2 + d.2))) with
        | none => rw [hf] at h; exact Option.noConfusion h
        | some adds =>
          rw [hf] at h
          have haddsR : ∀ s ∈ adds, RWalkTo board cs A origin (k + 2) m s := by
            intro s hs
            obtain ⟨hps, hsmem⟩ := filterMO_mem hf s hs
            by_cases hsc : s ∈ covered ++ [t]
            · rw [if_pos hsc] at hps
              exact absurd hps (by simp)
            · rw [if_neg hsc] at hps
              have hadjs : Adj t s := adj_iff_mem_nbrs.mpr hsmem
              have hsA : s ∉ A := fun hcon => hsc (hA2 s hcon)
              exact RWalkTo_extend (hS1 t (List.mem_cons_self _ _)) hadjs hps hsA
          obtain ⟨⟨a1, a2, a3⟩, ⟨b1, b2⟩, ⟨c1, c2⟩, d, e, f, g⟩ := ih h hndr hS1r hA2
          refine ⟨⟨fun x hx => a1 x (hcov2sub x hx), fun x hx => ?_, fun x hx => ?_⟩,
            ⟨b1, b2⟩,
            ⟨fun s hs => c1 s (List.mem_append.mpr (Or.inl hs)), fun s hs => ?_⟩,
            fun x hx hxc hxe => ?_, fun x hx hxc hxe => ?_, fun hct => ?_,
            fun hct hcf => ?_⟩
          · rcases a2 x hx with hx | hx
            · rcases List.mem_append.mp hx with hx | hx
              · exact Or.inl hx
              · simp only [List.mem_singleton] at hx
                exact Or.inr (hx ▸ List.mem_cons_self _ _)
            · exact Or.inr (List.mem_cons_of_mem _ hx)
          · rcases List.mem_cons.mp hx with hx | hx
            · exact a1 x (hx ▸ htcov2)
            · exact a3 x hx
          · rcases c2 s hs with hs | hs
            · rcases List.mem_append.mp hs with hs | hs
              · exact Or.inl hs
              · exact Or.inr (haddsR s hs)
            · exact Or.inr hs
          · rcases List.mem_cons.mp hx with hx | hx
            · exact absurd (hx ▸ hadjeq) hxe
            · exact d x hx (hnotc2 x hx hxc) hxe
          · rcases List.mem_cons.mp hx with hx | hx
            · intro s hadjs hfrees
              rw [hx] at hadjs
              by_cases hsc : s ∈ covered ++ [t]
              · exact Or.inr (a1 s hsc)
              · have hsmem : s ∈ delta.map (fun d => (t.1 + d.1, t.2 + d.2)) :=
                  adj_iff_mem_nbrs.mp hadjs
                have hsadds : s ∈ adds := by
                  refine filterMO_complete hf s hsmem ?_
                  rw [if_neg hsc]
                  exact hfrees
                exact Or.inl (c1 s (List.mem_append.mpr (Or.inr hsadds)))
            · exact e x hx (hnotc2 x hx hxc) hxe
          · obtain ⟨hct2, hprop⟩ := f hct
            refine ⟨hct2, fun x hx hxc => ?_⟩
            rcases List.mem_cons.mp hx with hx | hx
            · exact hx ▸ hadjeq
            · exact hprop x hx (hnotc2 x hx hxc)
          · obtain ⟨x, hx, hxc, hxe⟩ := g hct hcf
            refine ⟨x, List.mem_cons_of_mem _ hx, fun hcon => hxc (hcov2sub x hcon), hxe⟩

theorem RWalkTo_pos {board : Board} {cs : CritterMap} {avoid : List Pos}
    {origin : Pos} {n : Nat} {m t : Pos}
    (h : RWalkTo board cs avoid origin n m t) : 1 ≤ n := by
  obtain ⟨rest, -, -, -, h4, -⟩ := h
  omega

theorem WalkFrom_mem_not_avoid {board : Board} {cs : CritterMap} {avoid : List Pos} :
    ∀ {w : List Pos} {prev : Pos}, WalkFrom board cs avoid prev w →
      ∀ x ∈ w, x ∉ avoid := by
  intro w
  induction w with
  | nil => intro prev _ x hx; simp at hx
  | cons y rest ih =>
    intro prev hw x hx
    obtain ⟨-, -, h3, h4⟩ := hw
    rcases List.mem_cons.mp hx with hx | hx
    · exact hx ▸ h3
    · exact ih h4 x hx

theorem lastOf_mem : ∀ {w : List Pos} {prev : Pos}, w ≠ [] → lastOf prev w ∈ w := by
  intro w
  induction w with
  | nil => intro prev h; exact absurd rfl h
  | cons x rest ih =>
    intro prev _
    rw [lastOf_cons]
    cases hr : rest with
    | nil => subst hr; rw [lastOf_nil]; exact List.mem_cons_self _ _
    | cons y ys =>
      subst hr
      exact List.mem_cons_of_mem _ (ih (by simp))

theorem RWalkTo_not_avoid {board : Board} {cs : CritterMap} {avoid : List Pos}
    {origin : Pos} {n : Nat} {m t : Pos}
    (h : RWalkTo board cs avoid origin n m t) (h2 : 2 ≤ n) : t ∉ avoid := by
  obtain ⟨rest, -, -, h3, h4, h5⟩ := h
  have hne : rest ≠ [] := by
    intro hcon
    subst hcon
    simp at h4
    omega
  exact WalkFrom_mem_not_avoid h3 _ (h5 ▸ lastOf_mem hne)

/-- The full behaviour of the per-first-step BFS loop: candidates already
recorded are kept; every recorded candidate is an enemy-adjacent tile with a
walk of the recorded length; and every enemy-adjacent tile whose walk length
is minimal among all reachable enemy-adjacent tiles gets recorded with that
length. -/
theorem bfsLoop_spec {board : Board} {cs : CritterMap} {race : Race}
    {m : Pos} {A : List Pos} {origin : Pos} :
    ∀ {fuel : Nat} {stack covered : List Pos} {best : List Entry} {k : Nat}
      {out : List Entry},
      bfsLoop board cs race m fuel stack covered best k = some out →
      stack.Nodup →
      (∀ s ∈ stack, RWalkTo board cs A origin (k + 1) m s) →
      (∀ a ∈ A, a ∈ covered) →
      (∀ t n, RWalkTo board cs A origin n m t → n ≤ k → t ∈ covered) →
      (∀ t ∈ covered, t ∈ A ∨ ∃ n, n ≤ k ∧ RWalkTo board cs A origin n m t) →
      (∀ t, RWalkTo board cs A origin (k + 1) m t → t ∈ stack ∨ t ∈ covered) →
      (∀ t n, RWalkTo board cs A origin n m t → n ≤ k →
        adjacent_enemies cs t race = []) →
      1 ≤ k →
      ((∀ e ∈ best, e ∈ out) ∧
       (∀ e ∈ out, e ∈ best ∨ (e.1 = m ∧ adjacent_enemies cs e.2.2 race ≠ [] ∧
          RWalkTo board cs A origin e.2.1 m e.2.2)) ∧
       (∀ D t, RWalkTo board cs A origin D m t → adjacent_enemies cs t race ≠ [] →
          (∀ n' t', RWalkTo board cs A origin n' m t' →
            adjacent_enemies cs t' race ≠ [] → D ≤ n') →
          (m, D, t) ∈ out)) := by
  intro fuel
  induction fuel with
  | zero =>
    intro stack covered best k out h _ _ _ _ _ _ _ _
    exact absurd h (by rw [bfsLoop]; simp)
  | succ fuel ih =>
    intro stack covered best k out h hnd hS1 hA hH2 hH3 hH4 hH5 hk
    rw [bfsLoop] at h
    cases hp : processTiles board cs race m (k + 1) stack covered best [] true with
    | none => rw [hp] at h; exact Option.noConfusion h
    | some st =>
      obtain ⟨covered', best', newStack, cont⟩ := st
      rw [hp] at h
      dsimp only at h
      obtain ⟨⟨a1, a2, a3⟩, ⟨b1, b2⟩, ⟨c1, c2⟩, d, e, f, g⟩ :=
        processTiles_spec hp hnd hS1 hA
      have hdest_k1 : ∀ t', RWalkTo board cs A origin (k + 1) m t' →
          adjacent_enemies cs t' race ≠ [] → t' ∈ stack ∧ t' ∉ covered := by
        intro t' hw hdt
        have hnA : t' ∉ A := RWalkTo_not_avoid hw (by omega)
        have hnc : t' ∉ covered := by
          intro hcon
          rcases hH3 t' hcon with hA2 | ⟨n3, hn3, hw3⟩
          · exact hnA hA2
          · exact hdt (hH5 t' n3 hw3 hn3)
        rcases hH4 t' hw with hmem | hmem
        · exact ⟨hmem, hnc⟩
        · exact absurd hmem hnc
      by_cases hstop : ((dedupKeepFirst newStack).isEmpty || !cont) = true
      · rw [if_pos hstop] at h
        simp only [Option.some.injEq] at h
        subst h
        refine ⟨b1, fun e2 he2 => ?_, ?_⟩
        · rcases b2 e2 he2 with he2 | ⟨hm, hd, hadj2, hw2⟩
          · exact Or.inl he2
          · exact Or.inr ⟨hm, hadj2, hd ▸ hw2⟩
        · intro D t hwD hdt hmin
          have hDk : k + 1 ≤ D := by
            by_contra hcon
            exact hdt (hH5 t D hwD (by omega))
          cases hcont : cont with
          | false =>
            obtain ⟨t0, ht0s, ht0c, ht0e⟩ := g rfl hcont
            have hw0 : RWalkTo board cs A origin (k + 1) m t0 := hS1 t0 ht0s
            have hDle : D ≤ k + 1 := hmin (k + 1) t0 hw0 ht0e
            have hD : D = k + 1 := by omega
            subst hD
            obtain ⟨hts, htc⟩ := hdest_k1 t hwD hdt
            exact d t hts htc hdt
          | true =>
            have hnewnil : newStack = [] := by
              rw [hcont] at hstop
              simp only [Bool.not_true, Bool.or_false] at hstop
              have hdnil := List.isEmpty_iff.mp hstop
              cases hne : newStack with
              | nil => rfl
              | cons x xs =>
                have hxd : x ∈ dedupKeepFirst newStack :=
                  mem_dedupKeepFirst.mpr (by rw [hne]; exact List.mem_cons_self _ _)
                rw [hdnil] at hxd
                simp at hxd
            have hnodest1 : ∀ t', RWalkTo board cs A origin (k + 1) m t' →
                adjacent_enemies cs t' race = [] := by
              intro t' hw'
              by_contra hcon
              obtain ⟨hts, htc⟩ := hdest_k1 t' hw' hcon
              exact hcon ((f hcont).2 t' hts htc)
            have hclaim : ∀ n s, RWalkTo board cs A origin n m s →
                ∃ n', n' ≤ k + 1 ∧ RWalkTo board cs A origin n' m s := by
              intro n
              induction n using Nat.strong_induction_on with
              | _ n ihn =>
                intro s hws
                by_cases hn : n ≤ k + 1
                · exact ⟨n, hn, hws⟩
                · obtain ⟨j, rfl⟩ : ∃ j, n = j + 2 :=
                    ⟨n - 2, by have := RWalkTo_pos hws; omega⟩
                  obtain ⟨u, hwu, hadj_us, hfree_s, hsA⟩ := RWalkTo_peel hws
                  obtain ⟨n2, hn2le, hwu2⟩ := ihn (j + 1) (by omega) u hwu
                  by_cases hn2k : n2 + 1 ≤ k + 1
                  · exact ⟨n2 + 1, hn2k, RWalkTo_extend hwu2 hadj_us hfree_s hsA⟩
                  · have hn2eq : n2 = k + 1 := by omega
                    subst hn2eq
                    rcases hH4 u hwu2 with hus | huc
                    · by_cases hucov : u ∈ covered
                      · rcases hH3 u hucov with hA2 | ⟨n3, hn3, hwu3⟩
                        · exact absurd hA2 (RWalkTo_not_avoid hwu2 (by omega))
                        · exact ⟨n3 + 1, by omega,
                            RWalkTo_extend hwu3 hadj_us hfree_s hsA⟩
                      · have hnd_u : adjacent_enemies cs u race = [] :=
                          (f hcont).2 u hus hucov
                        rcases e u hus hucov hnd_u s hadj_us hfree_s with hsns | hscov
                        · rw [hnewnil] at hsns
                          simp at hsns
                        · rcases a2 s hscov with hsc | hss
                          · rcases hH3 s hsc with hA2 | ⟨n4, hn4, hws4⟩
                            · exact absurd hA2 hsA
                            · exact ⟨n4, by omega, hws4⟩
                          · exact ⟨k + 1, le_refl _, hS1 s hss⟩
                    · rcases hH3 u huc with hA2 | ⟨n3, hn3, hwu3⟩
                      · exact absurd hA2 (RWalkTo_not_avoid hwu2 (by omega))
                      · exact ⟨n3 + 1, by omega,
                          RWalkTo_extend hwu3 hadj_us hfree_s hsA⟩
            obtain ⟨D', hD'le, hwD'⟩ := hclaim D t hwD
            by_cases hD'k : D' ≤ k
            · exact absurd (hH5 t D' hwD' hD'k) hdt
            · have hD'eq : D' = k + 1 := by omega
              subst hD'eq
              exact absurd (hnodest1 t hwD') hdt
      · rw [if_neg hstop] at h
        have hcont : cont = true := by
          cases hcont : cont with
          | true => rfl
          | false => rw [hcont] at hstop; simp at hstop
        have hS1' : ∀ s ∈ dedupKeepFirst newStack,
            RWalkTo board cs A origin (k + 1 + 1) m s := by
          intro s hs
          rcases c2 s (mem_dedupKeepFirst.mp hs) with hs2 | hs2
          · simp at hs2
          · exact hs2
        have hA' : ∀ a ∈ A, a ∈ covered' := fun a ha => a1 a (hA a ha)
        have hH2' : ∀ t n, RWalkTo board cs A origin n m t → n ≤ k + 1 →
            t ∈ covered' := by
          intro t n hw hn
          by_cases hnk : n ≤ k
          · exact a1 t (hH2 t n hw hnk)
          · have hneq : n = k + 1 := by omega
            subst hneq
            rcases hH4 t hw with ht | ht
            · exact a3 t ht
            · exact a1 t ht
        have hH3' : ∀ t ∈ covered', t ∈ A ∨ ∃ n, n ≤ k + 1 ∧
            RWalkTo board cs A origin n m t := by
          intro t ht
          rcases a2 t ht with ht | ht
          · rcases hH3 t ht with h2 | ⟨n, hn, hw⟩
            · exact Or.inl h2
            · exact Or.inr ⟨n, by omega, hw⟩
          · exact Or.inr ⟨k + 1, le_refl _, hS1 t ht⟩
        have hH4' : ∀ t, RWalkTo board cs A origin (k + 1 + 1) m t →
            t ∈ dedupKeepFirst newStack ∨ t ∈ covered' := by
          intro s hws
          obtain ⟨u, hwu, hadj_us, hfree_s, hsA⟩ := RWalkTo_peel hws
          rcases hH4 u hwu with hus | huc
          · by_cases hucov : u ∈ covered
            · rcases hH3 u hucov with hA2 | ⟨n3, hn3, hwu3⟩
              · exact absurd hA2 (RWalkTo_not_avoid hwu (by omega))
              · exact Or.inr (hH2' s (n3 + 1)
                  (RWalkTo_extend hwu3 hadj_us hfree_s hsA) (by omega))
            · have hnd_u : adjacent_enemies cs u race = [] := (f hcont).2 u hus hucov
              rcases e u hus hucov hnd_u s hadj_us hfree_s with hsns | hscov
              · exact Or.inl (mem_dedupKeepFirst.mpr hsns)
              · exact Or.inr hscov
          · rcases hH3 u huc with hA2 | ⟨n3, hn3, hwu3⟩
            · exact absurd hA2 (RWalkTo_not_avoid hwu (by omega))
            · exact Or.inr (hH2' s (n3 + 1)
                (RWalkTo_extend hwu3 hadj_us hfree_s hsA) (by omega))
        have hH5' : ∀ t n, RWalkTo board cs A origin n m t → n ≤ k + 1 →
            adjacent_enemies cs t race = [] := by
          intro t n hw hn
          by_cases hnk : n ≤ k
          · exact hH5 t n hw hnk
          · have hneq : n = k + 1 := by omega
            subst hneq
            by_contra hcon
            obtain ⟨hts, htc⟩ := hdest_k1 t hw hcon
            exact hcon ((f hcont).2 t hts htc)
        obtain ⟨i1, i2, i3⟩ :=
          ih h (nodup_dedupKeepFirst _) hS1' hA' hH2' hH3' hH4' hH5' (by omega)
        refine ⟨fun e2 he2 => i1 e2 (b1 e2 he2), fun e2 he2 => ?_, i3⟩
        rcases i2 e2 he2 with he2 | he2
        · rcases b2 e2 he2 with he2 | ⟨hm, hd, hadj2, hw2⟩
          · exact Or.inl he2
          · exact Or.inr ⟨hm, hadj2, hd ▸ hw2⟩
        · exact Or.inr he2

theorem posLe_total (p q : Pos) : posLe p q = true ∨ posLe q p = true := by
  unfold posLe
  simp only [decide_eq_true_eq]
  omega

theorem posLe_trans {p q r : Pos} (h1 : posLe p q = true) (h2 : posLe q r = true) :
    posLe p r = true := by
  unfold posLe at h1 h2 ⊢
  simp only [decide_eq_true_eq] at h1 h2 ⊢
  omega

theorem posLe_antisymm {p q : Pos} (h1 : posLe p q = true) (h2 : posLe q p = true) :
    p = q := by
  unfold posLe at h1 h2
  simp only [decide_eq_true_eq] at h1 h2
  have hfst : p.1 = q.1 ∧ p.2 = q.2 := by omega
  exact Prod.ext hfst.1 hfst.2

theorem mem_insertSorted_of {A : Type} {le : A → A → Bool} {a x : A} :
    ∀ {l : List A}, (x = a ∨ x ∈ l) → x ∈ insertSorted le a l := by
  intro l
  induction l with
  | nil =>
    intro h
    rw [insertSorted]
    rcases h with h | h
    · exact h ▸ List.mem_singleton_self _
    · simp at h
  | cons b bs ih =>
    intro h
    rw [insertSorted]
    by_cases hle : le b a = true
    · rw [if_pos hle]
      rcases h with h | h
      · exact List.mem_cons_of_mem _ (ih (Or.inl h))
      · rcases List.mem_cons.mp h with h | h
        · exact h ▸ List.mem_cons_self _ _
        · exact List.mem_cons_of_mem _ (ih (Or.inr h))
    · rw [if_neg hle]
      rcases h with h | h
      · exact h ▸ List.mem_cons_self _ _
      · exact List.mem_cons_of_mem _ h

theorem mem_sortByBool_of_mem {A : Type} {le : A → A → Bool} {xs : List A} {x : A}
    (h : x ∈ xs) : x ∈ sortByBool le xs := by
  unfold sortByBool
  suffices haux : ∀ (l : List A) (acc : List A), x ∈ acc ∨ x ∈ l →
      x ∈ l.foldl (fun acc a => insertSorted le a acc) acc from
    haux xs [] (Or.inr h)
  intro l
  induction l with
  | nil =>
    intro acc h2
    rcases h2 with h2 | h2
    · exact h2
    · simp at h2
  | cons a rest ih =>
    intro acc h2
    rw [List.foldl_cons]
    rcases h2 with h2 | h2
    · exact ih _ (Or.inl (mem_insertSorted_of (Or.inr h2)))
    · rcases List.mem_cons.mp h2 with h2 | h2
      · exact ih _ (Or.inl (mem_insertSorted_of (Or.inl h2)))
      · exact ih _ (Or.inr h2)

theorem nbrs_nodup (p : Pos) :
    (delta.map (fun d => (p.1 + d.1, p.2 + d.2))).Nodup := by
  refine List.Nodup.map ?_ (by decide)
  intro d1 d2 h
  rw [Prod.mk.injEq] at h
  rw [Prod.ext_iff]
  omega

theorem WalkFrom_mem_occ {board : Board} {cs : CritterMap} {avoid : List Pos} :
    ∀ {w : List Pos} {prev : Pos}, WalkFrom board cs avoid prev w →
      ∀ x ∈ w, can_be_occupied board cs x = some true := by
  intro w
  induction w with
  | nil => intro prev _ x hx; simp at hx
  | cons y rest ih =>
    intro prev hw x hx
    obtain ⟨-, h2, -, h4⟩ := hw
    rcases List.mem_cons.mp hx with hx | hx
    · exact hx ▸ h2
    · exact ih h4 x hx

theorem lastOf_append {x : Pos} {w2 : List Pos} :
    ∀ (w1 : List Pos) (prev : Pos), lastOf prev (w1 ++ x :: w2) = lastOf x w2 := by
  intro w1
  induction w1 with
  | nil => intro prev; rw [List.nil_append, lastOf_cons]
  | cons y ys ih => intro prev; rw [List.cons_append, lastOf_cons]; exact ih y

theorem RWalkTo_unrestrict {board : Board} {cs : CritterMap} {avoid : List Pos}
    {origin : Pos} {n : Nat} {m t : Pos}
    (h : RWalkTo board cs avoid origin n m t) :
    RWalkTo board cs [] origin n m t := by
  obtain ⟨rest, h1, h2, h3, h4, h5⟩ := h
  exact ⟨rest, h1, h2, WalkFrom_mono_avoid (by simp) h3, h4, h5⟩

/-- `moves` in `critterAct` / the Python BFS is exactly the list of occupiable
neighbours of the unit's position. -/
theorem moves_iff {board : Board} {cs : CritterMap} {origin : Pos}
    {moves : List Pos}
    (h : filterMO (can_be_occupied board cs)
      (delta.map (fun d => (origin.1 + d.1, origin.2 + d.2))) = some moves) :
    ∀ x, x ∈ moves ↔ Adj origin x ∧ can_be_occupied board cs x = some true := by
  intro x
  constructor
  · intro hx
    obtain ⟨hpx, hmem⟩ := filterMO_mem h x hx
    exact ⟨adj_iff_mem_nbrs.mpr hmem, hpx⟩
  · intro hx
    exact filterMO_complete h x (adj_iff_mem_nbrs.mp hx.1) hx.2

/-- Soundness of the BFS loop alone: recorded candidates are preserved, and
every output candidate is either inherited or a genuine enemy-adjacent
destination reached by a walk via `m`. -/
theorem bfsLoop_sound {board : Board} {cs : CritterMap} {race : Race}
    {m : Pos} {A : List Pos} {origin : Pos} :
    ∀ {fuel : Nat} {stack covered : List Pos} {best : List Entry} {k : Nat}
      {out : List Entry},
      bfsLoop board cs race m fuel stack covered best k = some out →
      stack.Nodup →
      (∀ s ∈ stack, RWalkTo board cs A origin (k + 1) m s) →
      (∀ a ∈ A, a ∈ covered) →
      ((∀ e ∈ best, e ∈ out) ∧
       (∀ e ∈ out, e ∈ best ∨ (e.1 = m ∧ adjacent_enemies cs e.2.2 race ≠ [] ∧
          RWalkTo board cs A origin e.2.1 m e.2.2))) := by
  intro fuel
  induction fuel with
  | zero =>
    intro stack covered best k out h _ _ _
    exact absurd h (by rw [bfsLoop]; simp)
  | succ fuel ih =>
    intro stack covered best k out h hnd hS1 hA
    rw [bfsLoop] at h
    cases hp : processTiles board cs race m (k + 1) stack covered best [] true with
    | none => rw [hp] at h; exact Option.noConfusion h
    | some st =>
      obtain ⟨covered', best', newStack, cont⟩ := st
      rw [hp] at h
      dsimp only at h
      obtain ⟨⟨a1, a2, a3⟩, ⟨b1, b2⟩, ⟨c1, c2⟩, d, e, f, g⟩ :=
        processTiles_spec hp hnd hS1 hA
      by_cases hstop : ((dedupKeepFirst newStack).isEmpty || !cont) = true
      · rw [if_pos hstop] at h
        simp only [Option.some.injEq] at h
        subst h
        refine ⟨b1, fun e2 he2 => ?_⟩
        rcases b2 e2 he2 with he2 | ⟨hm, hd, hadj2, hw2⟩
        · exact Or.inl he2
        · exact Or.inr ⟨hm, hadj2, hd ▸ hw2⟩
      · rw [if_neg hstop] at h
        have hS1' : ∀ s ∈ dedupKeepFirst newStack,
            RWalkTo board cs A origin (k + 1 + 1) m s := by
          intro s hs
          rcases c2 s (mem_dedupKeepFirst.mp hs) with hs2 | hs2
          · simp at hs2
          · exact hs2
        obtain ⟨i1, i2⟩ := ih h (nodup_dedupKeepFirst _) hS1'
          (fun a ha => a1 a (hA a ha))
        refine ⟨fun e2 he2 => i1 e2 (b1 e2 he2), fun e2 he2 => ?_⟩
        rcases i2 e2 he2 with he2 | he2
        · rcases b2 e2 he2 with he2 | ⟨hm, hd, hadj2, hw2⟩
          · exact Or.inl he2
          · exact Or.inr ⟨hm, hadj2, hd ▸ hw2⟩
        · exact Or.inr he2

/-- One `for move in moves:` iteration: previously recorded candidates are
kept; new candidates are genuine enemy-adjacent destinations reached via `m`
by a walk avoiding the other first steps and the origin; and every
destination of minimal walk length via `m` is recorded. -/
theorem bfsForMove_spec {board : Board} {cs : CritterMap} {race : Race}
    {origin : Pos} {moves : List Pos} {best : List Entry} {m : Pos} {fuel : Nat}
    {out : List Entry}
    (h : bfsForMove board cs race origin moves best m fuel = some out)
    (hm : m ∈ moves)
    (hmoves : ∀ x, x ∈ moves ↔ Adj origin x ∧ can_be_occupied board cs x = some true) :
    ((∀ e ∈ best, e ∈ out) ∧
     (∀ e ∈ out, e ∈ best ∨ (e.1 = m ∧ adjacent_enemies cs e.2.2 race ≠ [] ∧
        RWalkTo board cs (moves ++ [origin]) origin e.2.1 m e.2.2)) ∧
     (∀ D t, RWalkTo board cs (moves ++ [origin]) origin D m t →
        adjacent_enemies cs t race ≠ [] →
        (∀ n' t', RWalkTo board cs (moves ++ [origin]) origin n' m t' →
          adjacent_enemies cs t' race ≠ [] → D ≤ n') →
        (m, D, t) ∈ out)) := by
  obtain ⟨hm_adj, hm_occ⟩ := (hmoves m).mp hm
  unfold bfsForMove at h
  dsimp only at h
  cases hst : filterMO
      (fun s => if s ∈ moves ++ [origin] then some false
        else can_be_occupied board cs s)
      (delta.map (fun d => (m.1 + d.1, m.2 + d.2))) with
  | none => rw [hst] at h; exact Option.noConfusion h
  | some stack0 =>
    rw [hst] at h
    dsimp only at h
    have hstack0 : ∀ s ∈ stack0, s ∉ moves ++ [origin] ∧
        can_be_occupied board cs s = some true ∧ Adj m s := by
      intro s hs
      obtain ⟨hps, hmem⟩ := filterMO_mem hst s hs
      by_cases hc : s ∈ moves ++ [origin]
      · rw [if_pos hc] at hps; simp at hps
      · rw [if_neg hc] at hps
        exact ⟨hc, hps, adj_iff_mem_nbrs.mpr hmem⟩
    have hnd0 : stack0.Nodup := List.Nodup.sublist (filterMO_sublist hst) (nbrs_nodup m)
    have hS1 : ∀ s ∈ stack0,
        RWalkTo board cs (moves ++ [origin]) origin (1 + 1) m s := by
      intro s hs
      obtain ⟨hnA, hocc, hadj⟩ := hstack0 s hs
      exact RWalkTo_extend (RWalkTo_self hm_adj hm_occ) hadj hocc hnA
    have hA : ∀ a ∈ moves ++ [origin], a ∈ moves ++ [origin] := fun a ha => ha
    by_cases hadjm : (adjacent_enemies cs m race).length > 0
    · rw [if_pos hadjm] at h
      have hDstm : adjacent_enemies cs m race ≠ [] := by
        intro hcon; rw [hcon] at hadjm; simp at hadjm
      obtain ⟨s1, s2⟩ := bfsLoop_sound h hnd0 hS1 hA
      have hmm : (m, 1, m) ∈ out := s1 _ (by simp)
      refine ⟨fun e2 he2 => s1 e2 (List.mem_append_left _ he2),
        fun e2 he2 => ?_, ?_⟩
      · rcases s2 e2 he2 with he2 | he2
        · rcases List.mem_append.mp he2 with he2 | he2
          · exact Or.inl he2
          · simp only [List.mem_singleton] at he2
            subst he2
            exact Or.inr ⟨rfl, hDstm, RWalkTo_self hm_adj hm_occ⟩
        · exact Or.inr he2
      · intro D t hwD hdt hmin
        have hD1 : D ≤ 1 := hmin 1 m (RWalkTo_self hm_adj hm_occ) hDstm
        have hD : D = 1 := le_antisymm hD1 (RWalkTo_pos hwD)
        subst hD
        obtain ⟨hteq, -, -⟩ := RWalkTo_one hwD
        subst hteq
        exact hmm
    · rw [if_neg hadjm] at h
      have hadjm' : adjacent_enemies cs m race = [] :=
        List.length_eq_zero.mp (by omega)
      have hmA : m ∈ moves ++ [origin] := List.mem_append_left _ hm
      have hH2 : ∀ t n, RWalkTo board cs (moves ++ [origin]) origin n m t →
          n ≤ 1 → t ∈ moves ++ [origin] := by
        intro t n hw hn
        have h1 : n = 1 := le_antisymm hn (RWalkTo_pos hw)
        subst h1
        obtain ⟨hteq, -, -⟩ := RWalkTo_one hw
        subst hteq
        exact hmA
      have hH4 : ∀ t, RWalkTo board cs (moves ++ [origin]) origin (1 + 1) m t →
          t ∈ stack0 ∨ t ∈ moves ++ [origin] := by
        intro t hw
        by_cases hc : t ∈ moves ++ [origin]
        · exact Or.inr hc
        · obtain ⟨u, hwu, hadj_ut, hocc_t, htA⟩ :=
            @RWalkTo_peel board cs (moves ++ [origin]) origin 0 m t hw
          obtain ⟨hueq, -, -⟩ := RWalkTo_one hwu
          subst hueq
          have hpt : (if t ∈ moves ++ [origin] then (some false : Option Bool)
              else can_be_occupied board cs t) = some true := by
            rw [if_neg hc]; exact hocc_t
          exact Or.inl (filterMO_complete hst t (adj_iff_mem_nbrs.mp hadj_ut) hpt)
      have hH5 : ∀ t n, RWalkTo board cs (moves ++ [origin]) origin n m t →
          n ≤ 1 → adjacent_enemies cs t race = [] := by
        intro t n hw hn
        have h1 : n = 1 := le_antisymm hn (RWalkTo_pos hw)
        subst h1
        obtain ⟨hteq, -, -⟩ := RWalkTo_one hw
        subst hteq
        exact hadjm'
      exact bfsLoop_spec h hnd0 hS1 hA hH2 (fun t ht => Or.inl ht) hH4 hH5
        (le_refl 1)

/-- The whole `for move in moves:` loop, run over the remaining first steps
`ms`: accumulated candidates are kept; every output candidate is genuine (via
its own recorded first step); and for every remaining first step, all
destinations of minimal walk length via that step are recorded. -/
theorem bfsAllMoves_spec {board : Board} {cs : CritterMap} {race : Race}
    {origin : Pos} {moves : List Pos} {fuel : Nat}
    (hmoves : ∀ x, x ∈ moves ↔ Adj origin x ∧ can_be_occupied board cs x = some true) :
    ∀ {ms : List Pos} {best out : List Entry},
      bfsAllMoves board cs race origin moves fuel ms best = some out →
      (∀ x ∈ ms, x ∈ moves) →
      ((∀ e ∈ best, e ∈ out) ∧
       (∀ e ∈ out, e ∈ best ∨ (e.1 ∈ ms ∧ adjacent_enemies cs e.2.2 race ≠ [] ∧
          RWalkTo board cs (moves ++ [origin]) origin e.2.1 e.1 e.2.2)) ∧
       (∀ m ∈ ms, ∀ D t, RWalkTo board cs (moves ++ [origin]) origin D m t →
          adjacent_enemies cs t race ≠ [] →
          (∀ n' t', RWalkTo board cs (moves ++ [origin]) origin n' m t' →
            adjacent_enemies cs t' race ≠ [] → D ≤ n') →
          (m, D, t) ∈ out)) := by
  intro ms
  induction ms with
  | nil =>
    intro best out h _
    rw [bfsAllMoves] at h
    simp only [Option.some.injEq] at h
    subst h
    exact ⟨fun e he => he, fun e he => Or.inl he, fun m hm => by simp at hm⟩
  | cons m rest ih =>
    intro best out h hms
    rw [bfsAllMoves] at h
    cases hf : bfsForMove board cs race origin moves best m fuel with
    | none => rw [hf] at h; exact Option.noConfusion h
    | some best' =>
      rw [hf] at h
      dsimp only at h
      obtain ⟨p1, p2, p3⟩ :=
        bfsForMove_spec hf (hms m (List.mem_cons_self _ _)) hmoves
      obtain ⟨q1, q2, q3⟩ := ih h (fun x hx => hms x (List.mem_cons_of_mem _ hx))
      refine ⟨fun e he => q1 e (p1 e he), fun e he => ?_, ?_⟩
      · rcases q2 e he with he2 | ⟨hmem, hdst, hw⟩
        · rcases p2 e he2 with he3 | ⟨heq, hdst, hw⟩
          · exact Or.inl he3
          · refine Or.inr ⟨heq ▸ List.mem_cons_self _ _, hdst, ?_⟩
            rw [heq]
            exact hw
        · exact Or.inr ⟨List.mem_cons_of_mem _ hmem, hdst, hw⟩
      · intro m' hm' D t hw hdst hmin
        rcases List.mem_cons.mp hm' with hm' | hm'
        · subst hm'
          exact q1 _ (p3 D t hw hdst hmin)
        · exact q3 m' hm' D t hw hdst hmin

theorem foldl_min_le_init : ∀ (xs : List Nat) (a : Nat), xs.foldl Nat.min a ≤ a := by
  intro xs
  induction xs with
  | nil => intro a; exact le_refl a
  | cons b bs ih =>
    intro a
    rw [List.foldl_cons]
    exact le_trans (ih (Nat.min a b)) (Nat.min_le_left a b)

theorem foldl_min_le_mem :
    ∀ (xs : List Nat) (a x : Nat), x ∈ xs → xs.foldl Nat.min a ≤ x := by
  intro xs
  induction xs with
  | nil => intro a x hx; simp at hx
  | cons b bs ih =>
    intro a x hx
    rw [List.foldl_cons]
    rcases List.mem_cons.mp hx with hx | hx
    · subst hx
      exact le_trans (foldl_min_le_init bs (Nat.min a x)) (Nat.min_le_right a x)
    · exact ih (Nat.min a b) x hx

theorem foldl_min_mem :
    ∀ (xs : List Nat) (a : Nat), xs.foldl Nat.min a = a ∨ xs.foldl Nat.min a ∈ xs := by
  intro xs
  induction xs with
  | nil => intro a; exact Or.inl rfl
  | cons b bs ih =>
    intro a
    rw [List.foldl_cons]
    rcases ih (Nat.min a b) with h | h
    · rw [h]
      rcases Nat.le_total a b with hab | hab
      · exact Or.inl (Nat.min_eq_left hab)
      · refine Or.inr ?_
        have hmb : Nat.min a b = b := Nat.min_eq_right hab
        rw [hmb]
        exact List.mem_cons_self _ _
    · exact Or.inr (List.mem_cons_of_mem _ h)

/-- The three-stage selection returns the first step of the candidate that is
minimal by distance, then by destination in reading order, then by first step
in reading order. -/
theorem selectBestMove_min {out : List Entry} {D : Nat} {T M : Pos}
    (hmem : (M, D, T) ∈ out)
    (hD : ∀ e ∈ out, D ≤ e.2.1)
    (hT : ∀ e ∈ out, e.2.1 = D → posLe T e.2.2 = true)
    (hM : ∀ e ∈ out, e.2.1 = D → e.2.2 = T → posLe M e.1 = true) :
    selectBestMove out = some M := by
  cases out with
  | nil => simp at hmem
  | cons e es =>
    unfold selectBestMove
    dsimp only
    have hmd : es.foldl (fun acc b => Nat.min acc b.2.1) e.2.1 = D := by
      rw [← List.foldl_map]
      refine le_antisymm ?_ ?_
      · rcases List.mem_cons.mp hmem with h | h
        · have he : e.2.1 = D := by rw [← h]
          exact he ▸ foldl_min_le_init _ e.2.1
        · exact foldl_min_le_mem _ e.2.1 D
            (List.mem_map_of_mem (fun b => b.2.1) h)
      · rcases foldl_min_mem (es.map (fun b => b.2.1)) e.2.1 with h | h
        · rw [h]; exact hD e (List.mem_cons_self _ _)
        · obtain ⟨b, hb, hbq⟩ := List.mem_map.mp h
          rw [← hbq]
          exact hD b (List.mem_cons_of_mem _ hb)
    rw [hmd]
    have hMDT1 : (M, D, T) ∈ (e :: es).filter (fun b => decide (b.2.1 = D)) :=
      List.mem_filter.mpr ⟨hmem, by simp⟩
    cases hbm1 : (e :: es).filter (fun b => decide (b.2.1 = D)) with
    | nil => rw [hbm1] at hMDT1; simp at hMDT1
    | cons x xs =>
      rw [hbm1] at hMDT1
      have hbm1mem : ∀ b, b ∈ x :: xs → b ∈ e :: es ∧ b.2.1 = D := by
        intro b hb
        have hb2 : b ∈ (e :: es).filter (fun b => decide (b.2.1 = D)) := by
          rw [hbm1]; exact hb
        obtain ⟨hb3, hb4⟩ := List.mem_filter.mp hb2
        exact ⟨hb3, by simpa using hb4⟩
      have hMDTs : (M, D, T) ∈ sortByBool (fun a b => posLe a.2.2 b.2.2) (x :: xs) :=
        mem_sortByBool_of_mem hMDT1
      cases h2s : sortByBool (fun a b => posLe a.2.2 b.2.2) (x :: xs) with
      | nil => rw [h2s] at hMDTs; simp at hMDTs
      | cons f fs =>
        dsimp only
        rw [h2s] at hMDTs
        obtain ⟨l1, l2, hsplit, hfmin, -⟩ := sortByBool_head_first_min
          (fun a b => posLe a.2.2 b.2.2) x xs f fs
          (fun a _ b _ => posLe_total a.2.2 b.2.2)
          (fun a _ b _ c _ h1 h2 => by exact posLe_trans h1 h2) h2s
        have hf1 : f ∈ x :: xs := by
          rw [hsplit]; exact List.mem_append_right _ (List.mem_cons_self _ _)
        obtain ⟨hfe, hfD⟩ := hbm1mem f hf1
        have hfT : f.2.2 = T :=
          posLe_antisymm (hfmin (M, D, T) hMDT1) (hT f hfe hfD)
        have hMDT2 : (M, D, T) ∈ (f :: fs).filter (fun b => decide (b.2.2 = f.2.2)) := by
          refine List.mem_filter.mpr ⟨hMDTs, ?_⟩
          simp [hfT]
        have hbm2mem : ∀ b, b ∈ (f :: fs).filter (fun b => decide (b.2.2 = f.2.2)) →
            b ∈ e :: es ∧ b.2.1 = D ∧ b.2.2 = T := by
          intro b hb
          obtain ⟨hb1, hb2⟩ := List.mem_filter.mp hb
          have hb3 : b ∈ x :: xs := mem_sortByBool (h2s ▸ hb1)
          obtain ⟨hb4, hb5⟩ := hbm1mem b hb3
          refine ⟨hb4, hb5, ?_⟩
          rw [← hfT]
          simpa using hb2
        cases hbm2 : (f :: fs).filter (fun b => decide (b.2.2 = f.2.2)) with
        | nil => rw [hbm2] at hMDT2; simp at hMDT2
        | cons y ys =>
          rw [hbm2] at hMDT2
          have hMDT3 : (M, D, T) ∈ sortByBool (fun a b => posLe a.1 b.1) (y :: ys) :=
            mem_sortByBool_of_mem hMDT2
          cases h3s : sortByBool (fun a b => posLe a.1 b.1) (y :: ys) with
          | nil => rw [h3s] at hMDT3; simp at hMDT3
          | cons g gs =>
            dsimp only
            obtain ⟨l1', l2', hsplit', hgmin, -⟩ := sortByBool_head_first_min
              (fun a b => posLe a.1 b.1) y ys g gs
              (fun a _ b _ => posLe_total a.1 b.1)
              (fun a _ b _ c _ h1 h2 => by exact posLe_trans h1 h2) h3s
            have hg1 : g ∈ y :: ys := by
              rw [hsplit']; exact List.mem_append_right _ (List.mem_cons_self _ _)
            obtain ⟨hge, hgD, hgT⟩ := hbm2mem g (hbm2 ▸ hg1)
            have hgM : g.1 = M :=
              posLe_antisymm (hgmin (M, D, T) hMDT2) (hM g hge hgD hgT)
            have hgfin : g ∈ (g :: gs).filter (fun b => decide (b.1 = g.1)) :=
              List.mem_filter.mpr ⟨List.mem_cons_self _ _, by simp⟩
            cases h4 : (g :: gs).filter (fun b => decide (b.1 = g.1)) with
            | nil => rw [h4] at hgfin; simp at hgfin
            | cons w ws =>
              dsimp only
              have hw : w ∈ (g :: gs).filter (fun b => decide (b.1 = g.1)) := by
                rw [h4]; exact List.mem_cons_self _ _
              have hw1 : w.1 = g.1 := by
                simpa using (List.mem_filter.mp hw).2
              rw [hw1, hgM]

theorem sortByBool_nil {A : Type} (le : A → A → Bool) : sortByBool le [] = [] := rfl

/-- A plain walk of globally minimal length to an enemy-adjacent destination
automatically avoids the unit's occupiable neighbours and its own tile, so it
is also a walk in the restricted sense explored by the BFS (whose covered set
is seeded with all first steps and the origin). -/
theorem minimal_plain_restrict {board : Board} {cs : CritterMap} {race : Race}
    {origin : Pos} {moves : List Pos}
    (hmoves : ∀ x, x ∈ moves ↔ Adj origin x ∧ can_be_occupied board cs x = some true)
    (horigin : can_be_occupied board cs origin ≠ some true)
    {D : Nat} {m t : Pos}
    (hw : RWalkTo board cs [] origin D m t)
    (ht : adjacent_enemies cs t race ≠ [])
    (hmin : ∀ n' m' t', RWalkTo board cs [] origin n' m' t' →
      adjacent_enemies cs t' race ≠ [] → D ≤ n') :
    RWalkTo board cs (moves ++ [origin]) origin D m t := by
  obtain ⟨w, h1, h2, h3, h4, h5⟩ := hw
  refine ⟨w, h1, h2, WalkFrom_strengthen h3 ?_, h4, h5⟩
  intro a ha hmem
  rcases List.mem_append.mp hmem with hamoves | haorig
  · obtain ⟨ha_adj, ha_occ⟩ := (hmoves a).mp hamoves
    obtain ⟨w1, w2, hw12⟩ := List.append_of_mem ha
    subst hw12
    obtain ⟨hsuf, -, -⟩ := WalkFrom_suffix h3
    have hwalk : RWalkTo board cs [] origin (w2.length + 1) a (lastOf a w2) :=
      ⟨w2, ha_adj, ha_occ, hsuf, rfl, rfl⟩
    have hlast : lastOf a w2 = t := by
      rw [← h5, lastOf_append]
    rw [hlast] at hwalk
    have hle : D ≤ w2.length + 1 := hmin _ a t hwalk ht
    have hlen : (w1 ++ a :: w2).length + 1 = D := h4
    simp only [List.length_append, List.length_cons] at hlen
    omega
  · simp only [List.mem_singleton] at haorig
    subst haorig
    exact horigin (WalkFrom_mem_occ h3 a ha)

/-- **C4.** When an acting unit has no adjacent enemy, it moves exactly one
cell, chosen by the specified tie-breaks.  Writing `RWalkTo … [] …` for an
unblocked one-cell-step path from the unit through a first step to a tile:
if no enemy-adjacent tile is reachable, the unit's turn leaves the critters
unchanged; otherwise, for the shortest distance `D`, the reading-order
smallest enemy-adjacent destination `T` among tiles at distance `D`, and the
reading-order smallest first step `M` among steps starting a length-`D` path
to `T`, the unit moves exactly one cell to `M` (an occupiable neighbour of
its position) and its turn continues from that moved state. -/
theorem C4_movement {board : Board} {cs : CritterMap} {c : Critter} {fuel : Nat}
    {moves : List Pos} {out : List Entry}
    (hnoadj : adjacent_enemies cs (c.x, c.y) c.race = [])
    (horigin : can_be_occupied board cs (c.x, c.y) ≠ some true)
    (hmoves : filterMO (can_be_occupied board cs)
      (delta.map (fun d => (c.x + d.1, c.y + d.2))) = some moves)
    (hout : bfsAllMoves board cs c.race (c.x, c.y) moves fuel moves [] = some out) :
    ((¬ ∃ n m t, RWalkTo board cs [] (c.x, c.y) n m t ∧
        adjacent_enemies cs t c.race ≠ []) →
      critterAct board cs c fuel = some cs) ∧
    (∀ D T M, RWalkTo board cs [] (c.x, c.y) D M T →
      adjacent_enemies cs T c.race ≠ [] →
      (∀ n m t, RWalkTo board cs [] (c.x, c.y) n m t →
        adjacent_enemies cs t c.race ≠ [] → D ≤ n) →
      (∀ t, adjacent_enemies cs t c.race ≠ [] →
        (∃ m, RWalkTo board cs [] (c.x, c.y) D m t) → posLe T t = true) →
      (∀ m, RWalkTo board cs [] (c.x, c.y) D m T → posLe M m = true) →
      Adj (c.x, c.y) M ∧ can_be_occupied board cs M = some true ∧
      selectBestMove out = some M ∧
      critterAct board cs c fuel =
        (let cm := { c with x := M.1, y := M.2 }
         let cs2 := cmErase (cmAssign cs M cm) (c.x, c.y)
         match sortByBool (hpLe cs2) (adjacent_enemies cs2 (cm.x, cm.y) cm.race) with
         | [] => some cs2
         | p :: _ => attackAt cs2 cm p)) := by
  have hmv := @moves_iff board cs (c.x, c.y) moves hmoves
  obtain ⟨-, s2, s3⟩ := bfsAllMoves_spec hmv hout (fun x hx => hx)
  have hsound : ∀ e ∈ out, adjacent_enemies cs e.2.2 c.race ≠ [] ∧
      RWalkTo board cs [] (c.x, c.y) e.2.1 e.1 e.2.2 := by
    intro e he
    rcases s2 e he with he2 | ⟨-, hdst, hw⟩
    · simp at he2
    · exact ⟨hdst, RWalkTo_unrestrict hw⟩
  constructor
  · intro hno
    have hempty : out = [] := by
      cases hcase : out with
      | nil => rfl
      | cons e es =>
        obtain ⟨hdst, hw⟩ := hsound e (hcase ▸ List.mem_cons_self _ _)
        exact absurd ⟨e.2.1, e.1, e.2.2, hw, hdst⟩ hno
    subst hempty
    unfold critterAct
    simp only [hnoadj, sortByBool_nil, hmoves, hout]
    rfl
  · intro D T M hwT hdstT hDmin hTmin hMmin
    obtain ⟨w0, hMadj, hMocc, hw3, hw4, hw5⟩ := hwT
    have hwT2 : RWalkTo board cs [] (c.x, c.y) D M T :=
      ⟨w0, hMadj, hMocc, hw3, hw4, hw5⟩
    have hMmoves : M ∈ moves := (hmv M).mpr ⟨hMadj, hMocc⟩
    have hwT3 : RWalkTo board cs (moves ++ [(c.x, c.y)]) (c.x, c.y) D M T :=
      minimal_plain_restrict hmv horigin hwT2 hdstT hDmin
    have hMDT : (M, D, T) ∈ out := by
      refine s3 M hMmoves D T hwT3 hdstT ?_
      intro n' t' hw' hdst'
      exact hDmin n' M t' (RWalkTo_unrestrict hw') hdst'
    have hselD : ∀ e ∈ out, D ≤ e.2.1 := by
      intro e he
      obtain ⟨hdst, hw⟩ := hsound e he
      exact hDmin e.2.1 e.1 e.2.2 hw hdst
    have hselT : ∀ e ∈ out, e.2.1 = D → posLe T e.2.2 = true := by
      intro e he heD
      obtain ⟨hdst, hw⟩ := hsound e he
      exact hTmin e.2.2 hdst ⟨e.1, heD ▸ hw⟩
    have hselM : ∀ e ∈ out, e.2.1 = D → e.2.2 = T → posLe M e.1 = true := by
      intro e he heD heT
      obtain ⟨hdst, hw⟩ := hsound e he
      exact hMmin e.1 (heT ▸ heD ▸ hw)
    have hsel : selectBestMove out = some M :=
      selectBestMove_min hMDT hselD hselT hselM
    refine ⟨hMadj, hMocc, hsel, ?_⟩
    unfold critterAct
    simp only [hnoadj, sortByBool_nil, hmoves, hout, hsel]

/-- A single-corridor board `#####\n#E.G#\n#####` for exercising the
movement phase. -/
def exBoardC4 : Board :=
  [[Terrain.WALL, Terrain.WALL, Terrain.WALL, Terrain.WALL, Terrain.WALL],
   [Terrain.WALL, Terrain.FLOOR, Terrain.FLOOR, Terrain.FLOOR, Terrain.WALL],
   [Terrain.WALL, Terrain.WALL, Terrain.WALL, Terrain.WALL, Terrain.WALL]]

/-- The acting elf of the movement example, at `(1, 1)`. -/
def exElfC4 : Critter :=
  { attack_power := 3, hit_points := 200, race := Race.ELF, x := 1, y := 1, id := 0 }

/-- The goblin of the movement example, at `(1, 3)`. -/
def exGobC4 : Critter :=
  { attack_power := 3, hit_points := 200, race := Race.GOBLIN, x := 1, y := 3, id := 1 }

/-- Critters of the movement example. -/
def exCsC4 : CritterMap :=
  [(((1 : Int), (1 : Int)), exElfC4), (((1 : Int), (3 : Int)), exGobC4)]

/-- Witness for C4 on the corridor `#####` / `#E.G#` / `#####`: the elf at
`(1, 1)` has no adjacent enemy; the unique shortest path has length 1 and
ends on the enemy-adjacent tile `(1, 2)`, so the selection chooses the step
`(1, 2)`. -/
theorem C4_movement_witness :
    Adj ((1 : Int), (1 : Int)) ((1 : Int), (2 : Int)) ∧
    can_be_occupied exBoardC4 exCsC4 ((1 : Int), (2 : Int)) = some true ∧
    selectBestMove [(((1 : Int), (2 : Int)), 1, ((1 : Int), (2 : Int)))] =
      some ((1 : Int), (2 : Int)) := by
  have htm : ∀ t, adjacent_enemies exCsC4 t exElfC4.race ≠ [] →
      (∃ m, RWalkTo exBoardC4 exCsC4 [] (exElfC4.x, exElfC4.y) 1 m t) →
      posLe ((1 : Int), (2 : Int)) t = true := by
    intro t _ hex
    obtain ⟨m, hw⟩ := hex
    obtain ⟨hteq, hadj, hocc⟩ := RWalkTo_one hw
    subst hteq
    have hm := adj_iff_mem_nbrs.mp hadj
    simp only [delta, List.map_cons, List.map_nil, List.mem_cons,
      List.not_mem_nil, or_false] at hm
    rcases hm with hm | hm | hm | hm
    · subst hm; exact absurd hocc (by decide)
    · subst hm; exact absurd hocc (by decide)
    · subst hm; exact absurd hocc (by decide)
    · subst hm; decide
  have hmm : ∀ m, RWalkTo exBoardC4 exCsC4 [] (exElfC4.x, exElfC4.y) 1 m
      ((1 : Int), (2 : Int)) → posLe ((1 : Int), (2 : Int)) m = true := by
    intro m hw
    obtain ⟨hteq, -, -⟩ := RWalkTo_one hw
    rw [← hteq]
    decide
  have hreach : RWalkTo exBoardC4 exCsC4 [] (exElfC4.x, exElfC4.y) 1
      ((1 : Int), (2 : Int)) ((1 : Int), (2 : Int)) :=
    RWalkTo_self ⟨((0 : Int), (1 : Int)), by decide, by decide⟩ (by decide)
  have h := (@C4_movement exBoardC4 exCsC4 exElfC4 10
      [((1 : Int), (2 : Int))]
      [(((1 : Int), (2 : Int)), 1, ((1 : Int), (2 : Int)))]
      (by decide) (by decide) (by decide) (by decide)).2
      1 ((1 : Int), (2 : Int)) ((1 : Int), (2 : Int))
      hreach (by decide) (fun n m t hw _ => RWalkTo_pos hw) htm hmm
  exact ⟨h.1, h.2.1, h.2.2.1⟩

end Day15

